import Mathlib

/-!
Verification of the lookup-argument and batched-verification layer of the
sha2-on-cq-halo2 repository: a shallow embedding of
`arithmetic/curves/src/batch_pairing.rs`,
`halo2_proofs/src/plonk/static_lookup.rs`,
`halo2_proofs/src/plonk/static_lookup/prover.rs` and
`halo2_proofs/src/plonk/static_lookup/verifier.rs`,
with theorems settling the specification's claims about them.

Modelling conventions:
* field/scalar values are an abstract `Field F`; G1/G2 group elements are
  abstract commutative monoids/groups with a scalar action, instantiated at
  small concrete types for witnesses;
* Rust `BTreeMap`/`HashMap` values are association lists with distinct keys;
* fallible computations return `RunResult`: `ok` for `Ok(..)` returns,
  `err` for `Err(..)` returns, and `fail msg` for a Rust `panic!`/failed
  `expect`/failed `assert!` (the repository aborts by panicking in many of
  the places the specification describes as named errors).
-/

/-- Modelled from the spec: the distinct named error variants the
specification attributes to setup and proving failures
(`DuplicateValue`, `LookupValueNotFound`, `InconsistentVectorLookup`).
No such variants exist anywhere under the repository sources; they are
declared here only so that claims about them can be stated and compared
with what the code actually does. -/
inductive LookupError : Type where
  | DuplicateValue : LookupError
  | LookupValueNotFound : LookupError
  | InconsistentVectorLookup : LookupError
  deriving DecidableEq, Repr

/-- Result of running a fallible piece of Rust code: a normal return (`ok`),
a returned error value (`err`, the `Err` arm of a Rust `Result`), or an
abort via a Rust panic (`fail`, carrying the panic message). -/
inductive RunResult (α : Type) : Type where
  | ok (a : α) : RunResult α
  | err (e : LookupError) : RunResult α
  | fail (msg : String) : RunResult α
  deriving DecidableEq, Repr

namespace RunResult

def bind {α β : Type} : RunResult α → (α → RunResult β) → RunResult β
  | ok a, f => f a
  | err e, _ => err e
  | fail m, _ => fail m

instance : Monad RunResult where
  pure := ok
  bind := bind

/-- Run a fallible computation on every element of a list, collecting the
results in order (the monadic map the prover loops correspond to). -/
def mapList {α β : Type} (f : α → RunResult β) : List α → RunResult (List β)
  | [] => ok []
  | a :: rest => do
    let b ← f a
    let bs ← mapList f rest
    pure (b :: bs)

/-- Fold a fallible step over a list (the monadic fold the prover loops
correspond to). -/
def foldList {α σ : Type} (f : σ → α → RunResult σ) (init : σ) : List α → RunResult σ
  | [] => ok init
  | a :: rest => do
    let s ← f init a
    foldList f s rest

end RunResult

/-- The Rust panic message of a failed `Option::unwrap()`, produced by every
`invert().unwrap()` in the prover. -/
def unwrapFailMsg : String := "called Option::unwrap() on a None value"

/-- The Rust panic message of an out-of-bounds slice index. -/
def indexFailMsg : String := "index out of bounds"

/-- Checked field inversion: Rust's `Field::invert` returns `CtOption`,
empty exactly on zero. -/
def finv {F : Type} [Field F] [DecidableEq F] (x : F) : Option F :=
  if x = 0 then none else some x⁻¹

/-- Checked list indexing, modelling Rust slice indexing (which panics when
out of bounds). -/
def listIndex {α : Type} (l : List α) (i : Nat) : RunResult α :=
  match l.get? i with
  | some a => .ok a
  | none => .fail indexFailMsg

/-- Association-list lookup with decidable key equality, modelling
`HashMap::get` / `BTreeMap::get`. -/
def lookupKey {κ α : Type} [DecidableEq κ] (k : κ) : List (κ × α) → Option α
  | [] => none
  | (k', a) :: rest => if k = k' then some a else lookupKey k rest

/-- `HashMap::entry(k).and_modify(|v| v += a).or_insert(a)`: add `a` to the
value stored at `k`, inserting `a` if the key is absent. -/
def upsertAdd {κ α : Type} [DecidableEq κ] [Add α] (k : κ) (a : α) :
    List (κ × α) → List (κ × α)
  | [] => [(k, a)]
  | (k', a') :: rest =>
    if k = k' then (k', a' + a) :: rest else (k', a') :: upsertAdd k a rest

/-- `HashMap::insert(k, a)`: overwrite the value stored at `k`, inserting it
if the key is absent. -/
def upsertSet {κ α : Type} [DecidableEq κ] (k : κ) (a : α) :
    List (κ × α) → List (κ × α)
  | [] => [(k, a)]
  | (k', a') :: rest =>
    if k = k' then (k', a) :: rest else (k', a') :: upsertSet k a rest

/-! ## PairingBatcher (`arithmetic/curves/src/batch_pairing.rs`)

`F` is the scalar field, `G1`/`G2` the two source groups, `R` the type of
canonical G2 encodings (`G2Affine::to_bytes` in the source); `enc` is the
encoding function. The two hash maps are association lists with distinct
keys. -/

structure PairingBatcher (F G1 G2 R : Type) : Type where
  /-- Mapping of g2 repr to g2 point (`g2_to_g2` in the source). -/
  g2_to_g2 : List (R × G2)
  /-- Mapping of g2 repr to the accumulated G1 sum (`g2_to_g1`). -/
  g2_to_g1 : List (R × G1)
  challenge : F
  running_challenge : F
  finalized : Bool
  deriving DecidableEq

namespace PairingBatcher

variable {F G1 G2 R : Type}

/-- `PairingBatcher::new(challenge)`. -/
def new [One F] (challenge : F) : PairingBatcher F G1 G2 R :=
  { g2_to_g2 := []
    g2_to_g1 := []
    challenge := challenge
    running_challenge := 1
    finalized := false }

/-- `PairingBatcher::update_mapping`: fold the call's triples into the two
maps, summing G1 contributions per G2 encoding and overwriting the stored
G2 point. -/
def update_mapping [DecidableEq R] [Add G1]
    (st : PairingBatcher F G1 G2 R) :
    List (R × G1 × G2) → PairingBatcher F G1 G2 R
  | [] => st
  | (repr, g1, g2) :: rest =>
    update_mapping
      { st with
        g2_to_g1 := upsertAdd repr g1 st.g2_to_g1
        g2_to_g2 := upsertSet repr g2 st.g2_to_g2 }
      rest

/-- `PairingBatcher::add_pairing(pairs)`. -/
def add_pairing [DecidableEq R] [Mul F] [Add G1] [SMul F G1]
    (enc : G2 → R) (st : PairingBatcher F G1 G2 R)
    (pairs : List (G1 × G2)) : PairingBatcher F G1 G2 R :=
  let g2_reprs : List R := pairs.map fun p => enc p.2
  let is_present : Bool := g2_reprs.any fun repr => (lookupKey repr st.g2_to_g1).isSome
  let g2_points : List G2 := pairs.map fun p => p.2
  if is_present then
    let running_challenge := st.running_challenge * st.challenge
    let g1_points : List G1 := pairs.map fun p => running_challenge • p.1
    update_mapping { st with running_challenge := running_challenge }
      (g2_reprs.zip (g1_points.zip g2_points))
  else
    let g1_points : List G1 := pairs.map fun p => p.1
    update_mapping st (g2_reprs.zip (g1_points.zip g2_points))

/-- Apply a sequence of `add_pairing` calls in order. -/
def add_pairings [DecidableEq R] [Mul F] [Add G1] [SMul F G1]
    (enc : G2 → R) (st : PairingBatcher F G1 G2 R) :
    List (List (G1 × G2)) → PairingBatcher F G1 G2 R
  | [] => st
  | call :: rest => add_pairings enc (add_pairing enc st call) rest

/-- `PairingBatcher::finalize`.  Consuming `self` is modelled by returning
the successor state alongside the result; the G2-preparation step
(`G2Prepared::from`, an external precomputation) is the identity here. -/
def finalize [DecidableEq R] (st : PairingBatcher F G1 G2 R) :
    RunResult (List (G1 × G2) × PairingBatcher F G1 G2 R) :=
  if st.finalized then .fail "Batcher is already consumed!"
  else
    match RunResult.mapList
        (fun p : R × G1 =>
          match lookupKey p.1 st.g2_to_g2 with
          | some g2 => .ok (p.2, g2)
          | none => .fail unwrapFailMsg)
        st.g2_to_g1 with
    | .ok pairs => .ok (pairs, { st with finalized := true })
    | .err e => .err e
    | .fail m => .fail m

/-- The well-formedness invariant maintained by every reachable batcher:
the G1-sum map has distinct keys and every one of its keys also keys a
stored G2 point. -/
def Inv [DecidableEq R] (st : PairingBatcher F G1 G2 R) : Prop :=
  (st.g2_to_g1.map Prod.fst).Nodup ∧
    ∀ r, (lookupKey r st.g2_to_g1).isSome → (lookupKey r st.g2_to_g2).isSome

end PairingBatcher

/-! ## Static tables (`halo2_proofs/src/plonk/static_lookup.rs`) -/

/-- `is_pow_2` from `static_lookup.rs` (`(x & (x - 1)) == 0`, with `Nat`
truncating subtraction matching the release-mode wrap at `x = 0`). -/
def is_pow_2 (x : Nat) : Bool := x &&& (x - 1) == 0

/-- Prover-side view of a static table (`StaticTableValues` in the source):
its size, the value-to-row-index `BTreeMap`, the ordered values, and the
per-row quotient commitments `qs`. -/
structure StaticTableValues (F G1 : Type) : Type where
  size : Nat
  value_index_mapping : List (F × Nat)
  values : List F
  qs : List G1
  deriving DecidableEq

/-- Verifier-side view of a static table (`StaticCommittedTable`). -/
structure StaticCommittedTable (G2 : Type) : Type where
  zv : G2
  t : G2
  x_b0_bound : G2
  size : Nat
  deriving DecidableEq

/-- SRS-derived per-table-size configuration (`StaticTableConfig`). -/
structure StaticTableConfig (G1 : Type) : Type where
  size : Nat
  g1_lagrange : List G1
  g_lagrange_opening_at_0 : List G1
  deriving DecidableEq

/-- `values.iter().enumerate().map(|(i, &f)| (f, i)).collect::<BTreeMap<_, _>>()`:
on duplicate values the later row index overwrites the earlier one. -/
def build_value_index_mapping {F : Type} [DecidableEq F] (values : List F) :
    List (F × Nat) :=
  values.enum.foldl (fun m p => upsertSet p.2 p.1 m) []

/-- `StaticTableValues::new(values, srs_g1)`.  The per-row quotient
commitments are computed by `kate_division`/`best_multiexp` from the
`arithmetic` module — external field/curve arithmetic outside the lookup
layer — abstracted here as the function `qsOf`; the claims about `new`
concern only its validation and the mapping. -/
def StaticTableValues.new {F G1 : Type} [DecidableEq F]
    (values : List F) (qsOf : List F → List G1) :
    RunResult (StaticTableValues F G1) :=
  let size := values.length
  if ¬ is_pow_2 size then .fail "assertion failed: is_pow_2(size)"
  else
    let value_index_mapping := build_value_index_mapping values
    let keys_len := value_index_mapping.length
    if size ≠ keys_len then .fail "assertion failed: size == keys_len"
    else .ok { size := size, value_index_mapping := value_index_mapping,
               values := values, qs := qsOf values }

/-! ## Transcript items

The Fiat-Shamir transcript byte encoding is external (§6); the ordered
channel itself is modelled as a list of typed items. -/

/-- One transcript element: a curve point (`write_point`/`read_point`) or a
scalar (`write_scalar`/`read_scalar`). -/
inductive TItem (F G1 : Type) : Type where
  | point (p : G1) : TItem F G1
  | scalar (s : F) : TItem F G1
  deriving DecidableEq, Repr

/-! ## Lookup prover (`halo2_proofs/src/plonk/static_lookup/prover.rs`) -/

/-- Multi-scalar multiplication (`best_multiexp`): pair coefficients with
bases positionally and sum the scalar multiples. -/
def msm {F G1 : Type} [AddCommMonoid G1] [SMul F G1]
    (coeffs : List F) (bases : List G1) : G1 :=
  ((coeffs.zip bases).map fun p => p.1 • p.2).sum

/-- `compress_expressions`: fold the evaluated input expressions with
`acc * θ + expression`, pointwise over the `n` rows, starting from the
all-zero column (`domain.empty_lagrange()`). -/
def compressExpressions {F : Type} [Field F] (θ : F) (n : Nat)
    (evaluated_expressions : List (List F)) : List F :=
  evaluated_expressions.foldl
    (fun acc e => List.zipWith (fun a v => a * θ + v) acc e)
    (List.replicate n 0)

/-- Panic message of the failed `expect` when a looked-up value is absent
from the table (`"{:?} not in table"` in the source). -/
def notInTableMsg : String := "value not in table"

/-- Panic message of an inconsistent multi-column lookup. -/
def vectorLookupMsg : String := "Vector lookup must be on the same table row"

/-- Panic message when a row resolves to no table at all. -/
def lookupFailedMsg : String := "Lookup failed"

/-- Panic message when the lookup references tables of different sizes. -/
def tableSizesMsg : String := "Tables should all be of the same size"

/-- Panic message of the `assert!(f_set.get(&table_values).is_some())`
sanity check in `commit_log_derivatives`. -/
def fSetAssertMsg : String := "assertion failed: f_set contains table_values"

/-- One `(evals, table)` step of the per-row lookup loop in
`Argument::commit`: read the row's value from this expression, find its
row index in this table's mapping, and check consistency with the index
found by earlier expressions. -/
def lookupRowStep {F G1 : Type} [DecidableEq F] (row : Nat)
    (idx : Option Nat) (p : List F × StaticTableValues F G1) :
    RunResult (Option Nat) := do
  let fi ← match p.1.get? row with
    | some v => RunResult.ok v
    | none => RunResult.fail unwrapFailMsg
  let index ← match lookupKey fi p.2.value_index_mapping with
    | some i => RunResult.ok i
    | none => RunResult.fail notInTableMsg
  match idx with
  | some prev_index =>
    if prev_index ≠ index then RunResult.fail vectorLookupMsg
    else pure (some prev_index)
  | none => pure (some index)

/-- The full per-row lookup of `Argument::commit`: resolve the row to a
single table index, failing as the source does. -/
def lookupRow {F G1 : Type} [DecidableEq F]
    (evaluated_expressions : List (List F))
    (tables : List (StaticTableValues F G1)) (row : Nat) : RunResult Nat := do
  let idx ← RunResult.foldList (lookupRowStep row) none
    (evaluated_expressions.zip tables)
  match idx with
  | some index => pure index
  | none => RunResult.fail lookupFailedMsg

/-- The multiplicity-accumulation loop of `Argument::commit`: process the
given rows in order, incrementing the resolved index's entry of the sparse
multiplicity map. -/
def commitScan {F G1 : Type} [Field F] [DecidableEq F]
    (evaluated_expressions : List (List F))
    (tables : List (StaticTableValues F G1)) :
    List Nat → List (Nat × F) → RunResult (List (Nat × F))
  | [], m_sparse => .ok m_sparse
  | row :: rest, m_sparse => do
    let index ← lookupRow evaluated_expressions tables row
    commitScan evaluated_expressions tables rest (upsertAdd index 1 m_sparse)

/-- The lookup prover's first-round output (`Committed` in
`static_lookup/prover.rs`): the compressed witness column and the sparse
multiplicity map. -/
structure Committed (F : Type) : Type where
  f : List F
  m_sparse : List (Nat × F)
  deriving DecidableEq

/-- `Argument::commit`: compress the evaluated input expressions, resolve
each usable row against the tables building `m_sparse`, commit `f` and the
sparse `m`, and write both commitments to the transcript.  Expression
evaluation itself (`plonk::evaluation::evaluate`) is the external
gate-evaluation engine; its per-row results are this function's
`evaluated_expressions` input. -/
def Argument.commit {F G1 : Type} [Field F] [DecidableEq F]
    [AddCommMonoid G1] [SMul F G1]
    (tables : List (StaticTableValues F G1))
    (table_config : StaticTableConfig G1)
    (params_g_lagrange : List G1) (θ : F)
    (evaluated_expressions : List (List F))
    (n blinding_factors : Nat) :
    RunResult (Committed F × List (TItem F G1)) := do
  let t0 ← listIndex tables 0
  if ¬ tables.all fun t => t.size = t0.size then RunResult.fail tableSizesMsg
  else do
    let f := compressExpressions θ n evaluated_expressions
    let usable_rows := n - (blinding_factors + 1)
    let m_sparse ← commitScan evaluated_expressions tables
      (List.range usable_rows) []
    let f_cm : G1 := msm f params_g_lagrange
    let m_cm ← RunResult.foldList
      (fun acc p => do
        let g ← listIndex table_config.g1_lagrange p.1
        pure (p.2 • g + acc))
      (0 : G1) m_sparse
    pure ({ f := f, m_sparse := m_sparse }, [.point f_cm, .point m_cm])

/-- The `compress_tables` closure of `commit_log_derivatives`: θ-fold the
referenced tables' values and quotient commitments at one row index. -/
def compress_tables {F G1 : Type} [Field F] [AddCommMonoid G1] [SMul F G1]
    (tables : List (StaticTableValues F G1)) (θ : F) (index : Nat) :
    RunResult (F × G1) :=
  RunResult.foldList
    (fun acc t => do
      let v ← listIndex t.values index
      let q ← listIndex t.qs index
      pure (acc.1 * θ + v, θ • acc.2 + q))
    ((0 : F), (0 : G1)) tables

/-- One `(index, multiplicity)` step of the A-accumulation loop in
`commit_log_derivatives`: `a_i = multiplicity / (compressed value + β)`,
then accumulate `a_i · (lagrange[index], qs[index], opening_at_zero[index])`
into the three running commitments, after the source's sanity `assert!`
that the compressed table value occurs among the witness values. -/
def aLoopStep {F G1 : Type} [Field F] [DecidableEq F]
    [AddCommMonoid G1] [SMul F G1]
    (tables : List (StaticTableValues F G1))
    (table_config : StaticTableConfig G1) (θ β : F) (f_set : List F)
    (acc : G1 × G1 × G1) (p : Nat × F) : RunResult (G1 × G1 × G1) := do
  let tv ← compress_tables tables θ p.1
  let inv ← match finv (tv.1 + β) with
    | some v => RunResult.ok v
    | none => RunResult.fail unwrapFailMsg
  let a_i := p.2 * inv
  if tv.1 ∈ f_set then do
    let g ← listIndex table_config.g1_lagrange p.1
    let g0 ← listIndex table_config.g_lagrange_opening_at_0 p.1
    pure (a_i • g + acc.1, a_i • tv.2 + acc.2.1, a_i • g0 + acc.2.2)
  else RunResult.fail fSetAssertMsg

/-- Modelled from the spec: `EvaluationDomain::ifft` — the FFT/NTT
evaluation-domain engine, an out-of-scope external service (§1, §6) —
as the inverse discrete Fourier transform it computes: coefficient `j` of
the interpolant is `n_inv · Σ_i evals[i] · omega_inv^(i·j)`, where
`omega_inv` is the inverse domain generator and `n_inv` the domain's
precomputed `ifft_divisor` (the inverse of the domain size). -/
def ifftCoeffs {F : Type} [Field F] (evals : List F) (omega_inv n_inv : F) :
    List F :=
  (List.range evals.length).map fun j =>
    n_inv * ((List.range evals.length).map fun i =>
      evals.getD i 0 * omega_inv ^ (i * j)).sum

/-- `eval_polynomial` from `arithmetic.rs`: Horner evaluation folding from
the highest coefficient. -/
def evalPolynomial {F : Type} [Field F] (poly : List F) (point : F) : F :=
  poly.reverse.foldl (fun acc c => acc * point + c) 0

/-- The lookup prover's second-round output (`CommittedLogDerivative`). -/
structure CommittedLogDerivative (F : Type) : Type where
  b : List F
  b0 : List F
  f : List F
  a_at_zero : F
  deriving DecidableEq

/-- `Committed::commit_log_derivatives`: accumulate `A`, `Q_A`, `A0` over
the sparse multiplicities, build `B` from the inverted witness values
(`1/(f_i+β)` on usable rows, `1/β` on the remaining rows), inverse-FFT it
over the circuit domain of size `n = 2^k`, split off `b0 = (b - b(0))/X`,
commit `b0` and the degree-bound proof `p`, derive `a_at_zero` from
`b(0)`, and write the five commitments to the transcript in order.
`params_g` is the SRS basis used by `params.commit`, `b0_g1_bound` the SRS
tail `pk.b0_g1_bound`. -/
def Committed.commit_log_derivatives {F G1 : Type} [Field F] [DecidableEq F]
    [AddCommMonoid G1] [SMul F G1]
    (tables : List (StaticTableValues F G1))
    (table_config : StaticTableConfig G1)
    (params_g b0_g1_bound : List G1)
    (k blinding_factors : Nat) (omega_inv n_inv : F) (β θ : F)
    (self : Committed F) :
    RunResult (CommittedLogDerivative F × List (TItem F G1)) := do
  let f_set : List F := self.f
  let acc ← RunResult.foldList
    (aLoopStep tables table_config θ β f_set)
    ((0 : G1), (0 : G1), (0 : G1)) self.m_sparse
  let a_cm := acc.1
  let qa_cm := acc.2.1
  let a0_cm := acc.2.2
  let n : Nat := 2 ^ k
  let usable_rows := n - (blinding_factors + 1)
  let bs ← RunResult.mapList
    (fun fi => match finv (fi + β) with
      | some v => RunResult.ok v
      | none => RunResult.fail unwrapFailMsg)
    (self.f.take usable_rows)
  let beta_inv ← match finv β with
    | some v => RunResult.ok v
    | none => RunResult.fail unwrapFailMsg
  let bs := bs ++ List.replicate (blinding_factors + 1) beta_inv
  let b_poly := ifftCoeffs bs omega_inv n_inv
  let b0_poly_coeffs := b_poly.drop 1
  let p_cm : G1 := msm b0_poly_coeffs b0_g1_bound
  let b0_poly := b0_poly_coeffs ++ [0]
  let b0_cm : G1 := msm b0_poly params_g
  let b_at_zero := evalPolynomial b_poly 0
  let n_table_inv ← match finv ((table_config.size : Nat) : F) with
    | some v => RunResult.ok v
    | none => RunResult.fail unwrapFailMsg
  let a_at_zero :=
    (b_at_zero * (n : F) - ((blinding_factors : F) + 1) * beta_inv) * n_table_inv
  let fcoeffs := ifftCoeffs self.f omega_inv n_inv
  pure ({ b := b_poly, b0 := b0_poly, f := fcoeffs, a_at_zero := a_at_zero },
    [.point a_cm, .point qa_cm, .point a0_cm, .point b0_cm, .point p_cm])

/-- `CommittedLogDerivative::evaluate`: evaluate `b0` and `f` at the
challenge `x` and write `b0_eval, f_eval, a_at_zero` to the transcript in
that order (infallible apart from the external transcript writes). -/
def CommittedLogDerivative.evaluate {F G1 : Type} [Field F]
    (self : CommittedLogDerivative F) (x : F) :
    CommittedLogDerivative F × List (TItem F G1) :=
  let b0_eval := evalPolynomial self.b0 x
  let f_eval := evalPolynomial self.f x
  (self, [.scalar b0_eval, .scalar f_eval, .scalar self.a_at_zero])

/-! ## Lookup verifier (`halo2_proofs/src/plonk/static_lookup/verifier.rs`) -/

/-- `transcript.read_point()`: consume one point from the head of the
transcript, failing on a scalar or an exhausted transcript. -/
def readPoint {F G1 : Type} :
    List (TItem F G1) → Option (G1 × List (TItem F G1))
  | .point p :: rest => some (p, rest)
  | _ => none

/-- `transcript.read_scalar()`: consume one scalar from the head of the
transcript. -/
def readScalar {F G1 : Type} :
    List (TItem F G1) → Option (F × List (TItem F G1))
  | .scalar s :: rest => some (s, rest)
  | _ => none

/-- Verifier state `CommittedWitness` (transcript-read `f` and `m`
commitments). -/
structure CommittedWitnessV (G1 : Type) : Type where
  f : G1
  m : G1
  deriving DecidableEq

/-- Verifier state `CommittedLogDerivative`. -/
structure CommittedLogDerivativeV (G1 : Type) : Type where
  committed_witness : CommittedWitnessV G1
  a : G1
  qa : G1
  a0 : G1
  b0 : G1
  p : G1
  deriving DecidableEq

/-- Verifier state `Evaluated`. -/
structure EvaluatedV (F G1 : Type) : Type where
  committed : CommittedLogDerivativeV G1
  b0_eval : F
  f_eval : F
  a_at_zero : F
  deriving DecidableEq

/-- `Argument::read_committed`: read the `f` and `m` commitments, in that
order. -/
def Argument.read_committed {F G1 : Type} (transcript : List (TItem F G1)) :
    Option (CommittedWitnessV G1 × List (TItem F G1)) := do
  let (f, transcript) ← readPoint transcript
  let (m, transcript) ← readPoint transcript
  some ({ f := f, m := m }, transcript)

/-- `CommittedWitness::read_committed_log_derivative`: read the `a`, `qa`,
`a0`, `b0`, `p` commitments, in that order. -/
def CommittedWitnessV.read_committed_log_derivative {F G1 : Type}
    (self : CommittedWitnessV G1) (transcript : List (TItem F G1)) :
    Option (CommittedLogDerivativeV G1 × List (TItem F G1)) := do
  let (a, transcript) ← readPoint transcript
  let (qa, transcript) ← readPoint transcript
  let (a0, transcript) ← readPoint transcript
  let (b0, transcript) ← readPoint transcript
  let (p, transcript) ← readPoint transcript
  some ({ committed_witness := self, a := a, qa := qa, a0 := a0,
          b0 := b0, p := p }, transcript)

/-- Verifier `CommittedLogDerivative::evaluate`: read `b0_eval`, `f_eval`,
`a_at_zero`, in that order. -/
def CommittedLogDerivativeV.evaluate {F G1 : Type}
    (self : CommittedLogDerivativeV G1) (transcript : List (TItem F G1)) :
    Option (EvaluatedV F G1 × List (TItem F G1)) := do
  let (b0_eval, transcript) ← readScalar transcript
  let (f_eval, transcript) ← readScalar transcript
  let (a_at_zero, transcript) ← readScalar transcript
  some ({ committed := self, b0_eval := b0_eval, f_eval := f_eval,
          a_at_zero := a_at_zero }, transcript)

/-- The verifier's complete read sequence
`Uncommitted → CommittedWitness → CommittedLogDerivative → Evaluated`. -/
def verifierReadAll {F G1 : Type} (transcript : List (TItem F G1)) :
    Option (EvaluatedV F G1 × List (TItem F G1)) := do
  let (cw, transcript) ← Argument.read_committed transcript
  let (cld, transcript) ← cw.read_committed_log_derivative transcript
  cld.evaluate transcript

/-- `Evaluated::register_pairings`: the sequence of `add_pairing` calls the
verifier makes, each call being the list of `(G1, G2)` pairs it passes.
`g2` is `params.g2()` (the G2 generator `[1]₂`), `s_g2` is `params.s_g2()`
(`[x]₂`), and `g1_gen` the G1 generator. -/
def EvaluatedV.register_pairings {F G1 G2 : Type} [Field F]
    [AddCommGroup G1] [Module F G1] (self : EvaluatedV F G1)
    (table : StaticCommittedTable G2) (g2 s_g2 : G2) (g1_gen : G1)
    (β : F) : List (List (G1 × G2)) :=
  let m_minus_beta_a : G1 :=
    self.committed.committed_witness.m - β • self.committed.a
  let a_at_zero_cm : G1 := self.a_at_zero • g1_gen
  [[(self.committed.a, table.t),
    (-self.committed.qa, table.zv),
    (-m_minus_beta_a, g2),
    (self.committed.b0, table.x_b0_bound),
    (-self.committed.p, g2),
    (self.committed.a - a_at_zero_cm, g2),
    (-self.committed.a0, s_g2)]]

/-- `Evaluated::register_pairings` applied to a batcher: each emitted call
is submitted to `PairingBatcher::add_pairing` in order. -/
def EvaluatedV.register_pairings_apply {F G1 G2 R : Type} [Field F]
    [AddCommGroup G1] [Module F G1] [DecidableEq R] (self : EvaluatedV F G1)
    (table : StaticCommittedTable G2) (g2 s_g2 : G2) (g1_gen : G1) (β : F)
    (enc : G2 → R) (batcher : PairingBatcher F G1 G2 R) :
    PairingBatcher F G1 G2 R :=
  PairingBatcher.add_pairings enc batcher
    (self.register_pairings table g2 s_g2 g1_gen β)

/-- `Evaluated::expressions`: the iterator of scalar residuals the verifier
contributes to the gate aggregation.  In the source the body is
`iter::empty()` (the lookup-specific residual logic is commented out), so
every argument is ignored and no residual is produced. -/
def EvaluatedV.expressions {F G1 : Type} [Field F] (self : EvaluatedV F G1)
    (l_0 l_last l_blind : F) (θ β γ : F)
    (advice_evals fixed_evals instance_evals challenges : List F) :
    List F :=
  []

/-! ## Spec-side definitions

The following definitions transcribe the specification's wording (not the
source); they exist to be compared against the source-derived definitions
above. -/

/-- Modelled from the spec (§4.5/§4.3): `b_at_zero` derived from
`a_at_zero` by inverting the identity
`table_size·A(0) = circuit_domain_size·B(0) − (#blinding_rows+1)/β`. -/
def specBAtZero {F : Type} [Field F] (a_at_zero β : F)
    (table_size n blinding_factors : Nat) : F :=
  ((table_size : F) * a_at_zero + ((blinding_factors : F) + 1) * β⁻¹) *
    ((n : F))⁻¹

/-- Modelled from the spec (§4.5): the scalar residual
`b_eval·(active_rows·f_eval+β)−1` with `b_eval = b0_eval·x + b_at_zero`
that the specification says `expressions` returns. -/
def specResidual {F : Type} [Field F] (b0_eval f_eval a_at_zero x β
    active_rows : F) (table_size n blinding_factors : Nat) : F :=
  let b_eval :=
    b0_eval * x + specBAtZero a_at_zero β table_size n blinding_factors
  b_eval * (active_rows * f_eval + β) - 1

/-- Modelled from the spec (§4.3): the constant coefficient of the
polynomial interpolating the given evaluations over a multiplicative
domain of size `evals.length` — the mean `n⁻¹ · Σ evals`, independent of
the domain generator. -/
def specConstCoeff {F : Type} [Field F] (evals : List F) : F :=
  ((evals.length : F))⁻¹ * evals.sum

/-- Modelled from the spec (§4.3): the evaluation vector of `B` —
`1/(f_i+β)` on the usable rows and `1/β` on the remaining
`blinding_factors + 1` rows of the circuit domain. -/
def specBEvals {F : Type} [Field F] (f : List F) (β : F)
    (usable_rows blinding_factors : Nat) : List F :=
  (f.take usable_rows).map (fun fi => (fi + β)⁻¹) ++
    List.replicate (blinding_factors + 1) β⁻¹

/-! ## Auxiliary definitions used by theorem statements -/

/-- Sum of the G1 components of a call's triples whose G2 encoding is `r`
(the total contribution one `add_pairing` call makes to the accumulator
keyed by `r`). -/
def sumMatching {G1 G2 R : Type} [DecidableEq R] [AddCommMonoid G1] :
    List (R × G1 × G2) → R → G1
  | [], _ => 0
  | t :: rest, r =>
    if t.1 = r then t.2.1 + sumMatching rest r else sumMatching rest r

/-- Sum of the G1 points of a call whose paired G2 point encodes to `r`. -/
def callSum {G1 G2 R : Type} [DecidableEq R] [AddCommMonoid G1]
    (enc : G2 → R) : List (G1 × G2) → R → G1
  | [], _ => 0
  | p :: rest, r =>
    if enc p.2 = r then p.1 + callSum enc rest r else callSum enc rest r

/-- Sum of the multiplicity values of a sparse multiplicity map. -/
def sumMultiplicities {F : Type} [AddCommMonoid F] (m : List (Nat × F)) : F :=
  (m.map fun p => p.2).sum

/-- Whether every usable row of the evaluated expressions resolves, across
all referenced tables, to one consistent table row index (the property
`Argument::commit`'s scan enforces). -/
def RowsResolve {F G1 : Type} [DecidableEq F]
    (evaluated_expressions : List (List F))
    (tables : List (StaticTableValues F G1)) (usable_rows : Nat) : Prop :=
  ∀ row < usable_rows, ∃ index,
    lookupRow evaluated_expressions tables row = .ok index

/-! ## A concrete 13-element field for witnesses

`ZMod`'s and `ℚ`'s inverses are computed through well-founded recursion
and do not reduce inside the kernel, so concrete witness computations use
this small prime field on `Fin 13` instead, whose operations are all
structural (`x⁻¹ = x^11` by Fermat). -/

def F13 : Type := Fin 13

instance : DecidableEq F13 := inferInstanceAs (DecidableEq (Fin 13))

instance : Fintype F13 := inferInstanceAs (Fintype (Fin 13))

instance : Zero F13 := ⟨(0 : Fin 13)⟩

instance : One F13 := ⟨(1 : Fin 13)⟩

instance : Add F13 := ⟨fun a b => ⟨(a.val + b.val) % 13, Nat.mod_lt _ (by decide)⟩⟩

instance : Mul F13 := ⟨fun a b => ⟨(a.val * b.val) % 13, Nat.mod_lt _ (by decide)⟩⟩

instance : Neg F13 := ⟨fun a => ⟨(13 - a.val) % 13, Nat.mod_lt _ (by decide)⟩⟩

instance : Inv F13 := ⟨fun a => ⟨a.val ^ 11 % 13, Nat.mod_lt _ (by decide)⟩⟩

instance : Field F13 :=
  Field.ofMinimalAxioms F13
    (by decide) (by decide) (by decide) (by decide) (by decide) (by decide)
    (by decide) (by decide) (by decide) ⟨0, 1, by decide⟩

/-- A concrete two-row static table over `F13` used by witnesses. -/
def witnessTable : StaticTableValues F13 F13 :=
  { size := 2
    value_index_mapping := build_value_index_mapping [1, 5]
    values := [1, 5]
    qs := [6, 7] }

/-- A concrete table configuration over `F13` used by witnesses. -/
def witnessConfig : StaticTableConfig F13 :=
  { size := 2, g1_lagrange := [2, 3], g_lagrange_opening_at_0 := [4, 5] }

/-- A concrete verifier `Evaluated` state over `F13` used by witnesses. -/
def witnessEvaluatedV : EvaluatedV F13 F13 :=
  { committed :=
      { committed_witness := { f := 1, m := 2 }
        a := 3, qa := 4, a0 := 5, b0 := 6, p := 7 }
    b0_eval := 8, f_eval := 9, a_at_zero := 10 }

/-- A concrete verifier-side committed table over `F13` used by
witnesses. -/
def witnessCommittedTable : StaticCommittedTable F13 :=
  { zv := 1, t := 2, x_b0_bound := 3, size := 2 }

/-- A second concrete static table over `F13` (`2·table`), used to build
multi-column lookups in counterexamples. -/
def witnessTable2 : StaticTableValues F13 F13 :=
  { size := 2
    value_index_mapping := build_value_index_mapping [2, 10]
    values := [2, 10]
    qs := [8, 9] }


/-! # Theorems -/

/-! ## Association-list helper lemmas -/

theorem lookupKey_isSome_iff {κ α : Type} [DecidableEq κ] (k : κ)
    (l : List (κ × α)) : (lookupKey k l).isSome ↔ k ∈ l.map Prod.fst := by
  induction l with
  | nil => simp [lookupKey]
  | cons p rest ih =>
    obtain ⟨k', a⟩ := p
    by_cases h : k = k' <;> simp [lookupKey, h, ih]

theorem lookupKey_upsertAdd_self {κ α : Type} [DecidableEq κ] [AddMonoid α]
    (k : κ) (v : α) (l : List (κ × α)) :
    lookupKey k (upsertAdd k v l) = some ((lookupKey k l).getD 0 + v) := by
  induction l with
  | nil => simp [lookupKey, upsertAdd]
  | cons p rest ih =>
    obtain ⟨k', a⟩ := p
    by_cases h : k = k' <;> simp [lookupKey, upsertAdd, h, ih]

theorem lookupKey_upsertAdd_ne {κ α : Type} [DecidableEq κ] [Add α]
    (r k : κ) (v : α) (l : List (κ × α)) (h : r ≠ k) :
    lookupKey r (upsertAdd k v l) = lookupKey r l := by
  induction l with
  | nil => simp [lookupKey, upsertAdd, h]
  | cons p rest ih =>
    obtain ⟨k', a⟩ := p
    by_cases hk : k = k'
    · subst hk
      simp [lookupKey, upsertAdd, h]
    · by_cases hr : r = k' <;> simp [lookupKey, upsertAdd, hk, hr, ih]

theorem lookupKey_upsertSet {κ α : Type} [DecidableEq κ]
    (r k : κ) (v : α) (l : List (κ × α)) :
    lookupKey r (upsertSet k v l) =
      if r = k then some v else lookupKey r l := by
  induction l with
  | nil => by_cases h : r = k <;> simp [lookupKey, upsertSet, h]
  | cons p rest ih =>
    obtain ⟨k', a⟩ := p
    by_cases hk : k = k'
    · subst hk
      by_cases hr : r = k <;> simp [lookupKey, upsertSet, hr]
    · by_cases hr : r = k' <;> by_cases hrk : r = k <;>
        simp_all [lookupKey, upsertSet]

theorem upsertAdd_keys {κ α : Type} [DecidableEq κ] [Add α] (k : κ) (v : α)
    (l : List (κ × α)) :
    (upsertAdd k v l).map Prod.fst =
      if k ∈ l.map Prod.fst then l.map Prod.fst
      else l.map Prod.fst ++ [k] := by
  induction l with
  | nil => simp [upsertAdd]
  | cons p rest ih =>
    obtain ⟨k', a⟩ := p
    by_cases h : k = k'
    · simp [upsertAdd, h]
    · by_cases hm : k ∈ rest.map Prod.fst <;>
        simp [upsertAdd, h, hm, ih, Ne.symm h]

theorem upsertAdd_keys_nodup {κ α : Type} [DecidableEq κ] [Add α] (k : κ)
    (v : α) (l : List (κ × α)) (h : (l.map Prod.fst).Nodup) :
    ((upsertAdd k v l).map Prod.fst).Nodup := by
  rw [upsertAdd_keys]
  by_cases hm : k ∈ l.map Prod.fst <;> simp [hm, h, List.nodup_append]

theorem upsertSet_keys {κ α : Type} [DecidableEq κ] (k : κ) (v : α)
    (l : List (κ × α)) :
    (upsertSet k v l).map Prod.fst =
      if k ∈ l.map Prod.fst then l.map Prod.fst
      else l.map Prod.fst ++ [k] := by
  induction l with
  | nil => simp [upsertSet]
  | cons p rest ih =>
    obtain ⟨k', a⟩ := p
    by_cases h : k = k'
    · simp [upsertSet, h]
    · by_cases hm : k ∈ rest.map Prod.fst <;>
        simp [upsertSet, h, hm, ih, Ne.symm h]

/-! ## PairingBatcher lemmas -/

theorem sumMatching_eq_zero {G1 G2 R : Type} [DecidableEq R]
    [AddCommMonoid G1] (triples : List (R × G1 × G2)) (r : R)
    (h : r ∉ triples.map Prod.fst) : sumMatching triples r = 0 := by
  induction triples with
  | nil => rfl
  | cons t rest ih =>
    simp only [List.map_cons, List.mem_cons, not_or] at h
    simp [sumMatching, Ne.symm h.1, ih h.2]

theorem update_mapping_g2_to_g1_lookup {F G1 G2 R : Type} [DecidableEq R]
    [AddCommMonoid G1] (triples : List (R × G1 × G2))
    (st : PairingBatcher F G1 G2 R) (r : R) :
    lookupKey r (PairingBatcher.update_mapping st triples).g2_to_g1 =
      if r ∈ triples.map Prod.fst then
        some ((lookupKey r st.g2_to_g1).getD 0 + sumMatching triples r)
      else lookupKey r st.g2_to_g1 := by
  induction triples generalizing st with
  | nil => simp [PairingBatcher.update_mapping]
  | cons t rest ih =>
    obtain ⟨k, g1, g2⟩ := t
    show lookupKey r (PairingBatcher.update_mapping _ rest).g2_to_g1 = _
    rw [ih]
    by_cases hrk : r = k
    · subst hrk
      show (if r ∈ rest.map Prod.fst then
          some ((lookupKey r (upsertAdd r g1 st.g2_to_g1)).getD 0 +
            sumMatching rest r)
        else lookupKey r (upsertAdd r g1 st.g2_to_g1)) = _
      rw [lookupKey_upsertAdd_self]
      by_cases hm : r ∈ rest.map Prod.fst
      · simp [hm, sumMatching, add_assoc]
      · simp [hm, sumMatching, sumMatching_eq_zero rest r hm]
    · show (if r ∈ rest.map Prod.fst then
          some ((lookupKey r (upsertAdd k g1 st.g2_to_g1)).getD 0 +
            sumMatching rest r)
        else lookupKey r (upsertAdd k g1 st.g2_to_g1)) = _
      rw [lookupKey_upsertAdd_ne _ _ _ _ hrk]
      by_cases hm : r ∈ rest.map Prod.fst <;>
        simp [hm, sumMatching, hrk, Ne.symm hrk]

theorem update_mapping_challenge {F G1 G2 R : Type} [DecidableEq R] [Add G1]
    (triples : List (R × G1 × G2)) (st : PairingBatcher F G1 G2 R) :
    (PairingBatcher.update_mapping st triples).challenge = st.challenge := by
  induction triples generalizing st with
  | nil => rfl
  | cons t rest ih =>
    obtain ⟨k, g1, g2⟩ := t
    exact ih _

theorem update_mapping_running {F G1 G2 R : Type} [DecidableEq R] [Add G1]
    (triples : List (R × G1 × G2)) (st : PairingBatcher F G1 G2 R) :
    (PairingBatcher.update_mapping st triples).running_challenge =
      st.running_challenge := by
  induction triples generalizing st with
  | nil => rfl
  | cons t rest ih =>
    obtain ⟨k, g1, g2⟩ := t
    exact ih _

theorem update_mapping_finalized {F G1 G2 R : Type} [DecidableEq R] [Add G1]
    (triples : List (R × G1 × G2)) (st : PairingBatcher F G1 G2 R) :
    (PairingBatcher.update_mapping st triples).finalized = st.finalized := by
  induction triples generalizing st with
  | nil => rfl
  | cons t rest ih =>
    obtain ⟨k, g1, g2⟩ := t
    exact ih _

theorem update_mapping_inv {F G1 G2 R : Type} [DecidableEq R] [Add G1]
    (triples : List (R × G1 × G2)) (st : PairingBatcher F G1 G2 R)
    (h : st.Inv) : (PairingBatcher.update_mapping st triples).Inv := by
  induction triples generalizing st with
  | nil => exact h
  | cons t rest ih =>
    obtain ⟨k, g1, g2⟩ := t
    refine ih _ ⟨upsertAdd_keys_nodup _ _ _ h.1, fun r hr => ?_⟩
    show (lookupKey r (upsertSet k g2 st.g2_to_g2)).isSome
    rw [lookupKey_upsertSet]
    by_cases hrk : r = k
    · simp [hrk]
    · have hr' : (lookupKey r st.g2_to_g1).isSome := by
        have := lookupKey_upsertAdd_ne r k g1 st.g2_to_g1 hrk
        simpa [this] using hr
      simp [hrk, h.2 r hr']

theorem add_pairing_inv {F G1 G2 R : Type} [DecidableEq R] [Mul F]
    [Add G1] [SMul F G1] (enc : G2 → R) (st : PairingBatcher F G1 G2 R)
    (pairs : List (G1 × G2)) (h : st.Inv) :
    (PairingBatcher.add_pairing enc st pairs).Inv := by
  unfold PairingBatcher.add_pairing
  by_cases hp : (pairs.map fun p => enc p.2).any
      (fun repr => (lookupKey repr st.g2_to_g1).isSome) <;>
    simp only [hp, if_true, if_false, Bool.false_eq_true] <;>
    exact update_mapping_inv _ _ h

theorem add_pairing_finalized {F G1 G2 R : Type} [DecidableEq R] [Mul F]
    [Add G1] [SMul F G1] (enc : G2 → R) (st : PairingBatcher F G1 G2 R)
    (pairs : List (G1 × G2)) :
    (PairingBatcher.add_pairing enc st pairs).finalized = st.finalized := by
  unfold PairingBatcher.add_pairing
  by_cases hp : (pairs.map fun p => enc p.2).any
      (fun repr => (lookupKey repr st.g2_to_g1).isSome) <;>
    simp only [hp, if_true, if_false, Bool.false_eq_true] <;>
    rw [update_mapping_finalized]

theorem new_inv {F G1 G2 R : Type} [DecidableEq R] [One F] (c : F) :
    ((PairingBatcher.new c : PairingBatcher F G1 G2 R)).Inv := by
  exact ⟨List.nodup_nil, fun r hr => by simp [PairingBatcher.new, lookupKey] at hr⟩

theorem add_pairings_inv {F G1 G2 R : Type} [DecidableEq R] [Mul F]
    [Add G1] [SMul F G1] (enc : G2 → R) (calls : List (List (G1 × G2))) :
    ∀ (st : PairingBatcher F G1 G2 R), st.Inv →
      (PairingBatcher.add_pairings enc st calls).Inv := by
  induction calls with
  | nil => exact fun st h => h
  | cons call rest ih =>
    exact fun st h => ih _ (add_pairing_inv enc st call h)

theorem add_pairings_finalized {F G1 G2 R : Type} [DecidableEq R] [Mul F]
    [Add G1] [SMul F G1] (enc : G2 → R) (calls : List (List (G1 × G2))) :
    ∀ (st : PairingBatcher F G1 G2 R),
      (PairingBatcher.add_pairings enc st calls).finalized = st.finalized := by
  induction calls with
  | nil => exact fun st => rfl
  | cons call rest ih =>
    intro st
    rw [show PairingBatcher.add_pairings enc st (call :: rest) =
      PairingBatcher.add_pairings enc
        (PairingBatcher.add_pairing enc st call) rest from rfl]
    rw [ih, add_pairing_finalized]

theorem zip_map_triple {G1 G2 R B : Type} (pairs : List (G1 × G2))
    (f : G1 × G2 → R) (g : G1 × G2 → B) :
    (pairs.map f).zip ((pairs.map g).zip (pairs.map fun p => p.2)) =
      pairs.map fun p => (f p, g p, p.2) := by
  induction pairs with
  | nil => rfl
  | cons p rest ih => simp [ih]

theorem sumMatching_map_triple {G1 G2 R : Type} [DecidableEq R]
    [AddCommMonoid G1] (enc : G2 → R) (g : G1 × G2 → G1)
    (pairs : List (G1 × G2)) (r : R) :
    sumMatching (pairs.map fun p => (enc p.2, g p, p.2)) r =
      callSum enc (pairs.map fun p => (g p, p.2)) r := by
  induction pairs with
  | nil => rfl
  | cons p rest ih =>
    by_cases h : enc p.2 = r <;> simp [sumMatching, callSum, h, ih]

theorem callSum_map_id {G1 G2 R : Type} [DecidableEq R] [AddCommMonoid G1]
    (enc : G2 → R) (pairs : List (G1 × G2)) (r : R) :
    callSum enc (pairs.map fun p => (p.1, p.2)) r = callSum enc pairs r := by
  induction pairs with
  | nil => rfl
  | cons p rest ih =>
    by_cases h : enc p.2 = r <;> simp [callSum, h, ih]

theorem triple_keys {G1 G2 R B : Type} (pairs : List (G1 × G2))
    (f : G1 × G2 → R) (g : G1 × G2 → B) :
    (pairs.map fun p => (f p, g p, p.2)).map Prod.fst = pairs.map f := by
  simp [List.map_map]

/-- C3: for every sequence of `add_pairing` calls on a fresh
`PairingBatcher` (running challenge 1): when a G2 encoding of the current
call already keys the accumulated G2-to-G1 map, the running challenge is
first multiplied by the session challenge and every G1 point of the call
is scaled by the updated running challenge before accumulation; otherwise
the call's G1 points are accumulated unscaled; in both cases each distinct
G2 encoding keeps a single running G1 sum (the key list stays
duplicate-free). -/
theorem claim_C3_add_pairing {F G1 G2 R : Type} [DecidableEq R] [Mul F]
    [One F] [AddCommMonoid G1] [SMul F G1] (enc : G2 → R) (c : F)
    (calls : List (List (G1 × G2))) (pairs : List (G1 × G2))
    (st : PairingBatcher F G1 G2 R)
    (hst : st = PairingBatcher.add_pairings enc (PairingBatcher.new c) calls) :
    ((∃ r ∈ pairs.map fun p => enc p.2, (lookupKey r st.g2_to_g1).isSome) →
      (PairingBatcher.add_pairing enc st pairs).running_challenge =
          st.running_challenge * st.challenge ∧
      ∀ r, lookupKey r (PairingBatcher.add_pairing enc st pairs).g2_to_g1 =
          if r ∈ pairs.map fun p => enc p.2 then
            some ((lookupKey r st.g2_to_g1).getD 0 +
              callSum enc (pairs.map fun p =>
                ((st.running_challenge * st.challenge) • p.1, p.2)) r)
          else lookupKey r st.g2_to_g1) ∧
    ((¬ ∃ r ∈ pairs.map fun p => enc p.2, (lookupKey r st.g2_to_g1).isSome) →
      (PairingBatcher.add_pairing enc st pairs).running_challenge =
          st.running_challenge ∧
      ∀ r, lookupKey r (PairingBatcher.add_pairing enc st pairs).g2_to_g1 =
          if r ∈ pairs.map fun p => enc p.2 then
            some ((lookupKey r st.g2_to_g1).getD 0 + callSum enc pairs r)
          else lookupKey r st.g2_to_g1) ∧
    ((PairingBatcher.add_pairing enc st pairs).g2_to_g1.map Prod.fst).Nodup := by
  have hinv : st.Inv := hst ▸ add_pairings_inv enc calls _ (new_inv c)
  refine ⟨?_, ?_, (add_pairing_inv enc st pairs hinv).1⟩
  · intro hex
    have hb : ((pairs.map fun p => enc p.2).any
        fun repr => (lookupKey repr st.g2_to_g1).isSome) = true := by
      rw [List.any_eq_true]
      obtain ⟨r, hr, hs⟩ := hex
      exact ⟨r, hr, hs⟩
    constructor
    · unfold PairingBatcher.add_pairing
      simp only [hb, if_true]
      rw [update_mapping_running]
    · intro r
      unfold PairingBatcher.add_pairing
      simp only [hb, if_true]
      rw [zip_map_triple, update_mapping_g2_to_g1_lookup, triple_keys,
        sumMatching_map_triple]
  · intro hex
    have hb : ((pairs.map fun p => enc p.2).any
        fun repr => (lookupKey repr st.g2_to_g1).isSome) = false := by
      rw [← Bool.not_eq_true, List.any_eq_true]
      intro hc
      exact hex hc
    constructor
    · unfold PairingBatcher.add_pairing
      simp only [hb, Bool.false_eq_true, if_false]
      rw [update_mapping_running]
    · intro r
      unfold PairingBatcher.add_pairing
      simp only [hb, Bool.false_eq_true, if_false]
      rw [zip_map_triple, update_mapping_g2_to_g1_lookup, triple_keys,
        sumMatching_map_triple, callSum_map_id]

/-- Witness for C3: the hypotheses hold at a concrete two-call run over
`Nat`, and both branch conclusions yield the expected accumulator
contents. -/
theorem claim_C3_add_pairing_witness :
    (PairingBatcher.add_pairing (id : Nat → Nat)
        (PairingBatcher.add_pairings id (PairingBatcher.new 5) [[(2, 3)]])
        [(4, 3), (6, 8)]).running_challenge = 5 ∧
    lookupKey 3 (PairingBatcher.add_pairing (id : Nat → Nat)
        (PairingBatcher.add_pairings id (PairingBatcher.new 5) [[(2, 3)]])
        [(4, 3), (6, 8)]).g2_to_g1 = some 22 ∧
    lookupKey 8 (PairingBatcher.add_pairing (id : Nat → Nat)
        (PairingBatcher.add_pairings id (PairingBatcher.new 5) [[(2, 3)]])
        [(4, 3), (6, 8)]).g2_to_g1 = some 30 := by
  have h := @claim_C3_add_pairing Nat Nat Nat Nat _ _ _ _ _
    id 5 [[(2, 3)]] [(4, 3), (6, 8)] _ rfl
  have hpresent : ∃ r ∈ [(4, 3), (6, 8)].map
      fun p : Nat × Nat => id p.2,
      (lookupKey r (PairingBatcher.add_pairings id
        (PairingBatcher.new 5) [[(2, 3)]] :
          PairingBatcher Nat Nat Nat Nat).g2_to_g1).isSome :=
    ⟨3, by decide, by decide⟩
  refine ⟨?_, ?_, ?_⟩
  · have := (h.1 hpresent).1
    rw [this]
    decide
  · have := (h.1 hpresent).2 3
    rw [this]
    decide
  · have := (h.1 hpresent).2 8
    rw [this]
    decide

theorem runresult_ok_bind {α β : Type} (a : α) (f : α → RunResult β) :
    (RunResult.ok a >>= f) = f a := rfl

theorem mapList_lookup_ok {G1 G2 R : Type} [DecidableEq R]
    (g2map : List (R × G2)) (l : List (R × G1))
    (h : ∀ p ∈ l, (lookupKey p.1 g2map).isSome) :
    ∃ out, RunResult.mapList
        (fun p : R × G1 =>
          match lookupKey p.1 g2map with
          | some g2 => RunResult.ok (p.2, g2)
          | none => RunResult.fail unwrapFailMsg) l = .ok out ∧
      out.length = l.length ∧
      ∀ p ∈ l, ∃ g2, lookupKey p.1 g2map = some g2 ∧ (p.2, g2) ∈ out := by
  induction l with
  | nil => exact ⟨[], rfl, rfl, by simp⟩
  | cons p rest ih =>
    have hp := h p (by simp)
    obtain ⟨g2, hg2⟩ := Option.isSome_iff_exists.mp hp
    obtain ⟨out, hout, hlen, hmem⟩ := ih fun q hq => h q (by simp [hq])
    refine ⟨(p.2, g2) :: out, ?_, by simp [hlen], ?_⟩
    · show RunResult.mapList _ (p :: rest) = _
      rw [RunResult.mapList]
      rw [show (match lookupKey p.1 g2map with
        | some g2 => RunResult.ok (p.2, g2)
        | none => RunResult.fail unwrapFailMsg) = RunResult.ok (p.2, g2) by
          rw [hg2]]
      rw [runresult_ok_bind, hout, runresult_ok_bind]
      rfl
    · intro q hq
      rcases List.mem_cons.mp hq with h1 | h2
      · subst h1
        exact ⟨g2, hg2, by simp⟩
      · obtain ⟨g2', hg2', hm⟩ := hmem q h2
        exact ⟨g2', hg2', by simp [hm]⟩

/-- C9: on any batcher reached by a sequence of `add_pairing` calls,
`finalize` succeeds and returns one `(G1, G2)` pair per distinct G2
encoding — each accumulated G1 sum paired with its stored G2 point — and
calling `finalize` again on the resulting (consumed) state fails. -/
theorem claim_C9_finalize {F G1 G2 R : Type} [DecidableEq R] [Mul F]
    [One F] [Add G1] [SMul F G1] (enc : G2 → R) (c : F)
    (calls : List (List (G1 × G2))) (st : PairingBatcher F G1 G2 R)
    (hst : st = PairingBatcher.add_pairings enc (PairingBatcher.new c) calls) :
    ∃ out st₂,
      PairingBatcher.finalize st = .ok (out, st₂) ∧
      out.length = st.g2_to_g1.length ∧
      (st.g2_to_g1.map Prod.fst).Nodup ∧
      (∀ p ∈ st.g2_to_g1, ∃ g2,
        lookupKey p.1 st.g2_to_g2 = some g2 ∧ (p.2, g2) ∈ out) ∧
      PairingBatcher.finalize st₂ = .fail "Batcher is already consumed!" := by
  have hinv : st.Inv := hst ▸ add_pairings_inv enc calls _ (new_inv c)
  have hfin : st.finalized = false := by
    rw [hst, add_pairings_finalized]
    rfl
  obtain ⟨out, hout, hlen, hmem⟩ := mapList_lookup_ok st.g2_to_g2 st.g2_to_g1
    (fun p hp => hinv.2 p.1 ((lookupKey_isSome_iff _ _).mpr
      (List.mem_map.mpr ⟨p, hp, rfl⟩)))
  refine ⟨out, { st with finalized := true }, ?_, hlen, hinv.1, hmem, ?_⟩
  · unfold PairingBatcher.finalize
    rw [hfin]
    simp only [Bool.false_eq_true, if_false]
    rw [hout]
  · unfold PairingBatcher.finalize
    simp

/-- Witness for C9 at a concrete batcher over `Nat`: one `add_pairing`
call with two distinct G2 points, then `finalize` twice. -/
theorem claim_C9_finalize_witness :
    PairingBatcher.finalize
        (PairingBatcher.add_pairings (id : Nat → Nat)
          (PairingBatcher.new 5) [[(2, 3), (4, 7)]]) =
      .ok ([(2, 3), (4, 7)],
        { g2_to_g2 := [(3, 3), (7, 7)], g2_to_g1 := [(3, 2), (7, 4)],
          challenge := 5, running_challenge := 1, finalized := true }) ∧
    PairingBatcher.finalize
        { g2_to_g2 := [(3, 3), (7, 7)], g2_to_g1 := [(3, 2), (7, 4)],
          challenge := (5 : Nat), running_challenge := (1 : Nat),
          finalized := true }
      = .fail "Batcher is already consumed!" := by
  obtain ⟨out, st₂, h1, -, -, -, h2⟩ :=
    @claim_C9_finalize Nat Nat Nat Nat _ _ _ _ _
      id 5 [[(2, 3), (4, 7)]] _ rfl
  have key : RunResult.ok (out, st₂) =
      RunResult.ok ([(2, 3), (4, 7)],
        ({ g2_to_g2 := [(3, 3), (7, 7)], g2_to_g1 := [(3, 2), (7, 4)],
           challenge := 5, running_challenge := 1, finalized := true } :
          PairingBatcher Nat Nat Nat Nat)) :=
    h1.symm.trans (by decide)
  have hpair := RunResult.ok.inj key
  have hout : out = [(2, 3), (4, 7)] := congrArg Prod.fst hpair
  have hst2 : st₂ =
      { g2_to_g2 := [(3, 3), (7, 7)], g2_to_g1 := [(3, 2), (7, 4)],
        challenge := 5, running_challenge := 1, finalized := true } :=
    congrArg Prod.snd hpair
  exact ⟨hst2 ▸ hout ▸ h1, hst2 ▸ h2⟩

/-! ## Verifier pairing registration (C4) and residuals (C1) -/

/-- C4 (amended): `register_pairings` emits exactly the 7 claimed pairing
terms `(A,[T(x)])`, `(−Q_A,[Z_V(x)])`, `(−(M−βA),[1])`, `(B0,[x_b0_bound])`,
`(−P,[1])`, `(A−[A0],[1])`, `(−A0,[x])` in this order, grouped as the 3
identities of §4.5 — but the source submits all 7 terms in a single call
to `PairingBatcher::add_pairing`, not as 3 separate calls. -/
theorem claim_C4_register_pairings {F G1 G2 R : Type} [Field F]
    [AddCommGroup G1] [Module F G1] [DecidableEq R]
    (self : EvaluatedV F G1) (table : StaticCommittedTable G2)
    (g2 s_g2 : G2) (g1_gen : G1) (β : F) (enc : G2 → R)
    (batcher : PairingBatcher F G1 G2 R) :
    self.register_pairings table g2 s_g2 g1_gen β =
      [[(self.committed.a, table.t),
        (-self.committed.qa, table.zv),
        (-(self.committed.committed_witness.m - β • self.committed.a), g2),
        (self.committed.b0, table.x_b0_bound),
        (-self.committed.p, g2),
        (self.committed.a - self.a_at_zero • g1_gen, g2),
        (-self.committed.a0, s_g2)]] ∧
    (self.register_pairings table g2 s_g2 g1_gen β).length = 1 ∧
    (self.register_pairings table g2 s_g2 g1_gen β).map List.length = [7] ∧
    self.register_pairings_apply table g2 s_g2 g1_gen β enc batcher =
      PairingBatcher.add_pairing enc batcher
        [(self.committed.a, table.t),
         (-self.committed.qa, table.zv),
         (-(self.committed.committed_witness.m - β • self.committed.a), g2),
         (self.committed.b0, table.x_b0_bound),
         (-self.committed.p, g2),
         (self.committed.a - self.a_at_zero • g1_gen, g2),
         (-self.committed.a0, s_g2)] :=
  ⟨rfl, rfl, rfl, rfl⟩

/-- Counterexample for C4 as stated: at a concrete `Evaluated` state the
emitted call list has length 1, not the 3 separate `add_pairing` calls the
claim asserts. -/
theorem claim_C4_counterexample :
    (witnessEvaluatedV.register_pairings witnessCommittedTable
        (1 : F13) (2 : F13) (1 : F13) (3 : F13)).length = 1 ∧
    (witnessEvaluatedV.register_pairings witnessCommittedTable
        (1 : F13) (2 : F13) (1 : F13) (3 : F13)).length ≠ 3 := by
  exact ⟨rfl, by decide⟩

/-- C1 (amended): `expressions` returns the empty iterator — no scalar
residual at all is contributed to the gate aggregation; in particular the
residual `b_eval·(active_rows·f_eval+β)−1` the specification describes is
not among the returned values, for any arguments. -/
theorem claim_C1_expressions {F G1 : Type} [Field F]
    (self : EvaluatedV F G1) (l_0 l_last l_blind θ β γ : F)
    (advice_evals fixed_evals instance_evals challenges : List F) :
    self.expressions l_0 l_last l_blind θ β γ advice_evals fixed_evals
        instance_evals challenges = [] ∧
    ∀ x active_rows : F, ∀ table_size n blinding_factors : Nat,
      specResidual self.b0_eval self.f_eval self.a_at_zero x β active_rows
          table_size n blinding_factors ∉
        self.expressions l_0 l_last l_blind θ β γ advice_evals fixed_evals
          instance_evals challenges :=
  ⟨rfl, fun _ _ _ _ _ => List.not_mem_nil _⟩

/-- Counterexample for C1 as stated: at a concrete `Evaluated` state and
challenge, `expressions` does not return the single spec-side residual —
it returns no residual at all. -/
theorem claim_C1_counterexample :
    witnessEvaluatedV.expressions 1 1 1 2 3 4 [] [] [] [] ≠
      [specResidual witnessEvaluatedV.b0_eval witnessEvaluatedV.f_eval
        witnessEvaluatedV.a_at_zero 2 3 1 2 4 1] ∧
    witnessEvaluatedV.expressions 1 1 1 2 3 4 [] [] [] [] = [] := by
  exact ⟨by simp [EvaluatedV.expressions], rfl⟩

/-! ## Static table construction (C8) -/

theorem upsertSet_keys_nodup {κ α : Type} [DecidableEq κ] (k : κ) (v : α)
    (l : List (κ × α)) (h : (l.map Prod.fst).Nodup) :
    ((upsertSet k v l).map Prod.fst).Nodup := by
  rw [upsertSet_keys]
  by_cases hm : k ∈ l.map Prod.fst <;> simp [hm, h, List.nodup_append]

theorem foldl_upsertSet_keys_nodup {F : Type} [DecidableEq F]
    (ps : List (Nat × F)) :
    ∀ m : List (F × Nat), (m.map Prod.fst).Nodup →
      (((ps.foldl (fun m p => upsertSet p.2 p.1 m) m)).map Prod.fst).Nodup := by
  induction ps with
  | nil => exact fun m h => h
  | cons p rest ih =>
    exact fun m h => ih _ (upsertSet_keys_nodup _ _ _ h)

theorem foldl_upsertSet_keys_mem {F : Type} [DecidableEq F]
    (ps : List (Nat × F)) :
    ∀ (m : List (F × Nat)) (v : F),
      (v ∈ (ps.foldl (fun m p => upsertSet p.2 p.1 m) m).map Prod.fst ↔
        v ∈ m.map Prod.fst ∨ v ∈ ps.map Prod.snd) := by
  induction ps with
  | nil => simp
  | cons p rest ih =>
    intro m v
    rw [List.foldl_cons, ih]
    rw [upsertSet_keys]
    by_cases hm : p.2 ∈ m.map Prod.fst
    · simp only [hm, if_true, List.map_cons, List.mem_cons]
      constructor
      · tauto
      · rintro (h | h | h)
        · tauto
        · exact Or.inl (h ▸ hm)
        · tauto
    · simp only [hm, if_false, List.mem_append, List.map_cons,
        List.mem_cons, List.mem_singleton]
      tauto

theorem build_value_index_mapping_keys_nodup {F : Type} [DecidableEq F]
    (values : List F) :
    ((build_value_index_mapping values).map Prod.fst).Nodup :=
  foldl_upsertSet_keys_nodup _ [] List.nodup_nil

theorem build_value_index_mapping_keys_mem {F : Type} [DecidableEq F]
    (values : List F) (v : F) :
    v ∈ (build_value_index_mapping values).map Prod.fst ↔ v ∈ values := by
  rw [build_value_index_mapping, foldl_upsertSet_keys_mem]
  simp [List.enum_map_snd]

theorem build_value_index_mapping_length {F : Type} [DecidableEq F]
    (values : List F) :
    (build_value_index_mapping values).length = values.dedup.length := by
  have h1 : (build_value_index_mapping values).length =
      ((build_value_index_mapping values).map Prod.fst).length :=
    (List.length_map _ _).symm
  rw [h1, ← List.toFinset_card_of_nodup
    (build_value_index_mapping_keys_nodup values), ← List.card_toFinset]
  congr 1
  ext v
  rw [List.mem_toFinset, List.mem_toFinset, build_value_index_mapping_keys_mem]

theorem dedup_length_eq_iff_nodup {F : Type} [DecidableEq F]
    (values : List F) :
    values.dedup.length = values.length ↔ values.Nodup := by
  constructor
  · intro h
    have := List.Sublist.eq_of_length (List.dedup_sublist values) h
    rw [← this]
    exact List.nodup_dedup values
  · intro h
    rw [List.dedup_eq_self.mpr h]

/-- C8 (amended): `StaticTableValues::new` requires a power-of-two number
of values and rejects duplicated values at construction time — but both
rejections are assertion panics (`assert!(is_pow_2(size))`,
`assert_eq!(size, keys_len)`), not a distinct named `DuplicateValue` error
value: no error value is ever returned. -/
theorem claim_C8_new {F G1 : Type} [DecidableEq F]
    (values : List F) (qsOf : List F → List G1) :
    (¬ is_pow_2 values.length = true →
      StaticTableValues.new values qsOf =
        .fail "assertion failed: is_pow_2(size)") ∧
    (is_pow_2 values.length = true → ¬ values.Nodup →
      StaticTableValues.new values qsOf =
        .fail "assertion failed: size == keys_len") ∧
    (∀ e, StaticTableValues.new values qsOf ≠ .err e) ∧
    (is_pow_2 values.length = true → values.Nodup →
      StaticTableValues.new values qsOf =
        .ok { size := values.length
              value_index_mapping := build_value_index_mapping values
              values := values
              qs := qsOf values }) := by
  have hbody : StaticTableValues.new values qsOf =
      if ¬ is_pow_2 values.length = true then
        RunResult.fail "assertion failed: is_pow_2(size)"
      else if values.length ≠ (build_value_index_mapping values).length then
        RunResult.fail "assertion failed: size == keys_len"
      else
        RunResult.ok { size := values.length
                       value_index_mapping := build_value_index_mapping values
                       values := values
                       qs := qsOf values } := rfl
  refine ⟨?_, ?_, ?_, ?_⟩
  · intro h
    rw [hbody, if_pos h]
  · intro hpow hdup
    have hne : values.length ≠ (build_value_index_mapping values).length := by
      rw [build_value_index_mapping_length]
      intro hc
      exact hdup ((dedup_length_eq_iff_nodup values).mp hc.symm)
    rw [hbody, if_neg (by simp [hpow]), if_pos hne]
  · intro e
    rw [hbody]
    split
    · simp
    · split <;> simp
  · intro hpow hnodup
    have heq : values.length = (build_value_index_mapping values).length := by
      rw [build_value_index_mapping_length,
        (dedup_length_eq_iff_nodup values).mpr hnodup]
    rw [hbody, if_neg (by simp [hpow]), if_neg (fun hc => hc heq)]

/-- Witness for C8 (amended): over `F13`, `new` panics on the duplicated
power-of-two-sized input `[1, 1]` and succeeds on the duplicate-free input
`[1, 5]`. -/
theorem claim_C8_new_witness :
    StaticTableValues.new ([1, 1] : List F13) (fun _ => ([] : List F13)) =
      .fail "assertion failed: size == keys_len" ∧
    StaticTableValues.new ([1, 5] : List F13) (fun _ => ([] : List F13)) =
      .ok { size := 2
            value_index_mapping := build_value_index_mapping [1, 5]
            values := [1, 5]
            qs := [] } :=
  ⟨(claim_C8_new [1, 1] (fun _ => [])).2.1 (by decide) (by decide),
   (claim_C8_new [1, 5] (fun _ => [])).2.2.2 (by decide) (by decide)⟩

/-- Counterexample for C8 as stated: on the duplicated input `[1, 1]` the
construction does not fail with the named error `DuplicateValue` — it
panics through `assert_eq!`. -/
theorem claim_C8_counterexample :
    StaticTableValues.new ([1, 1] : List F13) (fun _ => ([] : List F13)) ≠
      .err .DuplicateValue ∧
    StaticTableValues.new ([1, 1] : List F13) (fun _ => ([] : List F13)) =
      .fail "assertion failed: size == keys_len" := by
  exact ⟨by decide, by decide⟩

/-! ## RunResult plumbing lemmas -/

theorem runresult_bind_eq_ok {α β : Type} {x : RunResult α}
    {f : α → RunResult β} {b : β} :
    (x >>= f) = .ok b ↔ ∃ a, x = .ok a ∧ f a = .ok b := by
  cases x <;> simp [Bind.bind, RunResult.bind]

theorem noerr_bind {α β : Type} {x : RunResult α} {f : α → RunResult β}
    (hx : ∀ e, x ≠ .err e) (hf : ∀ a e, f a ≠ .err e) :
    ∀ e, (x >>= f) ≠ .err e := by
  cases x with
  | ok a => exact fun e => hf a e
  | err e' => exact absurd rfl (hx e')
  | fail m => intro e; simp [Bind.bind, RunResult.bind]

theorem noerr_listIndex {α : Type} (l : List α) (i : Nat) :
    ∀ e, listIndex l i ≠ .err e := by
  intro e
  unfold listIndex
  cases l.get? i <;> simp

theorem noerr_foldList {α σ : Type} {f : σ → α → RunResult σ}
    (hf : ∀ s a e, f s a ≠ .err e) :
    ∀ (l : List α) (init : σ) (e : LookupError),
      RunResult.foldList f init l ≠ .err e := by
  intro l
  induction l with
  | nil => intro init e; simp [RunResult.foldList]
  | cons a rest ih =>
    intro init e
    rw [RunResult.foldList]
    exact noerr_bind (fun e' => hf init a e') (fun s e' => ih s e') e

theorem noerr_mapList {α β : Type} {f : α → RunResult β}
    (hf : ∀ a e, f a ≠ .err e) :
    ∀ (l : List α) (e : LookupError), RunResult.mapList f l ≠ .err e := by
  intro l
  induction l with
  | nil => intro e; simp [RunResult.mapList]
  | cons a rest ih =>
    intro e
    rw [RunResult.mapList]
    refine noerr_bind (fun e' => hf a e') (fun b e' => ?_) e
    exact noerr_bind (fun e'' => ih e'') (fun bs e'' => by simp [pure]) e'

/-! ## Lookup prover commit: multiplicity conservation (C5) and
failure modes (C7) -/

theorem sumMultiplicities_upsertAdd {F : Type} [AddCommMonoid F]
    (i : Nat) (v : F) (m : List (Nat × F)) :
    sumMultiplicities (upsertAdd i v m) = sumMultiplicities m + v := by
  induction m with
  | nil => simp [upsertAdd, sumMultiplicities]
  | cons p rest ih =>
    obtain ⟨k, a⟩ := p
    by_cases h : i = k
    · simp [upsertAdd, h, sumMultiplicities, add_assoc, add_comm]
    · simp [upsertAdd, h, sumMultiplicities] at ih ⊢
      rw [ih, add_assoc]

theorem commitScan_sum {F G1 : Type} [Field F] [DecidableEq F]
    (exprs : List (List F)) (tables : List (StaticTableValues F G1)) :
    ∀ (rows : List Nat) (m0 m : List (Nat × F)),
      commitScan exprs tables rows m0 = .ok m →
      sumMultiplicities m = sumMultiplicities m0 + (rows.length : F) := by
  intro rows
  induction rows with
  | nil =>
    intro m0 m h
    rw [commitScan] at h
    cases h
    simp
  | cons row rest ih =>
    intro m0 m h
    rw [commitScan] at h
    obtain ⟨i, hi, hrest⟩ := runresult_bind_eq_ok.mp h
    rw [ih _ _ hrest, sumMultiplicities_upsertAdd]
    simp only [List.length_cons]
    push_cast
    ring

theorem lookupRowStep_ne_err {F G1 : Type} [DecidableEq F] (row : Nat)
    (idx : Option Nat) (p : List F × StaticTableValues F G1) :
    ∀ e, lookupRowStep row idx p ≠ .err e := by
  intro e
  unfold lookupRowStep
  cases hg : p.1.get? row with
  | none => simp [Bind.bind, RunResult.bind]
  | some v =>
    cases hl : lookupKey v p.2.value_index_mapping with
    | none => simp [Bind.bind, RunResult.bind, hl]
    | some i =>
      cases idx with
      | none => simp [Bind.bind, RunResult.bind, hl, pure]
      | some prev =>
        by_cases hp : prev ≠ i <;>
          simp [Bind.bind, RunResult.bind, hl, hp, pure]

theorem lookupRow_ne_err {F G1 : Type} [DecidableEq F]
    (exprs : List (List F)) (tables : List (StaticTableValues F G1))
    (row : Nat) : ∀ e, lookupRow exprs tables row ≠ .err e := by
  intro e
  unfold lookupRow
  refine noerr_bind
    (noerr_foldList (fun s a e' => lookupRowStep_ne_err row s a e') _ _)
    (fun idx e' => ?_) e
  cases idx <;> simp [pure]

theorem commitScan_ne_err {F G1 : Type} [Field F] [DecidableEq F]
    (exprs : List (List F)) (tables : List (StaticTableValues F G1)) :
    ∀ (rows : List Nat) (m0 : List (Nat × F)) (e : LookupError),
      commitScan exprs tables rows m0 ≠ .err e := by
  intro rows
  induction rows with
  | nil => intro m0 e; rw [commitScan]; simp
  | cons row rest ih =>
    intro m0 e
    rw [commitScan]
    exact noerr_bind (lookupRow_ne_err exprs tables row)
      (fun i e' => ih _ e') e

theorem commit_extract_scan {F G1 : Type} [Field F] [DecidableEq F]
    [AddCommMonoid G1] [SMul F G1]
    (tables : List (StaticTableValues F G1))
    (table_config : StaticTableConfig G1) (params_g_lagrange : List G1)
    (θ : F) (exprs : List (List F)) (n blinding_factors : Nat)
    (c : Committed F) (w : List (TItem F G1))
    (h : Argument.commit tables table_config params_g_lagrange θ exprs n
      blinding_factors = .ok (c, w)) :
    c.f = compressExpressions θ n exprs ∧
    commitScan exprs tables (List.range (n - (blinding_factors + 1))) [] =
      .ok c.m_sparse := by
  simp only [Argument.commit] at h
  obtain ⟨t0, ht0, h⟩ := runresult_bind_eq_ok.mp h
  by_cases hc : ¬ tables.all fun t => t.size = t0.size
  · rw [if_pos hc] at h
    exact absurd h (by simp)
  · rw [if_neg hc] at h
    obtain ⟨m_sparse, hscan, h⟩ := runresult_bind_eq_ok.mp h
    obtain ⟨m_cm, hfold, h⟩ := runresult_bind_eq_ok.mp h
    have hpair := RunResult.ok.inj h
    have hcw : c = { f := compressExpressions θ n exprs, m_sparse := m_sparse } :=
      (congrArg Prod.fst hpair).symm
    rw [hcw]
    exact ⟨rfl, hscan⟩

/-- C5: whenever `Argument::commit` succeeds, the multiplicities in the
returned sparse map `m_sparse` sum to the number of usable rows,
`n − (blinding_factors + 1)`, as a field element. -/
theorem claim_C5_multiplicity_conservation {F G1 : Type} [Field F]
    [DecidableEq F] [AddCommMonoid G1] [SMul F G1]
    (tables : List (StaticTableValues F G1))
    (table_config : StaticTableConfig G1) (params_g_lagrange : List G1)
    (θ : F) (exprs : List (List F)) (n blinding_factors : Nat)
    (c : Committed F) (w : List (TItem F G1))
    (h : Argument.commit tables table_config params_g_lagrange θ exprs n
      blinding_factors = .ok (c, w)) :
    sumMultiplicities c.m_sparse = ((n - (blinding_factors + 1) : Nat) : F) := by
  have hscan := (commit_extract_scan tables table_config params_g_lagrange θ
    exprs n blinding_factors c w h).2
  have := commitScan_sum exprs tables _ _ _ hscan
  rw [this]
  simp [sumMultiplicities]

/-- Witness for C5: the concrete one-usable-row commit over `F13`
succeeds, and its single multiplicity sums to `1 = 2 − (0 + 1)`. -/
theorem claim_C5_witness :
    sumMultiplicities (({ f := [1, 0], m_sparse := [(0, 1)] } :
      Committed F13).m_sparse) = ((2 - (0 + 1) : Nat) : F13) :=
  claim_C5_multiplicity_conservation [witnessTable] witnessConfig [1, 1] 2
    [[1, 0]] 2 0 { f := [1, 0], m_sparse := [(0, 1)] }
    [.point 1, .point 2] (by decide)

theorem commitScan_ok_resolves {F G1 : Type} [Field F] [DecidableEq F]
    (exprs : List (List F)) (tables : List (StaticTableValues F G1)) :
    ∀ (rows : List Nat) (m0 m : List (Nat × F)),
      commitScan exprs tables rows m0 = .ok m →
      ∀ row ∈ rows, ∃ i, lookupRow exprs tables row = .ok i := by
  intro rows
  induction rows with
  | nil => intro m0 m h row hrow; exact absurd hrow (List.not_mem_nil row)
  | cons r rest ih =>
    intro m0 m h row hrow
    rw [commitScan] at h
    obtain ⟨i, hi, hrest⟩ := runresult_bind_eq_ok.mp h
    rcases List.mem_cons.mp hrow with h1 | h2
    · exact ⟨i, h1 ▸ hi⟩
    · exact ih _ _ hrest row h2

theorem commit_ne_err {F G1 : Type} [Field F] [DecidableEq F]
    [AddCommMonoid G1] [SMul F G1]
    (tables : List (StaticTableValues F G1))
    (table_config : StaticTableConfig G1) (params_g_lagrange : List G1)
    (θ : F) (exprs : List (List F)) (n blinding_factors : Nat) :
    ∀ e, Argument.commit tables table_config params_g_lagrange θ exprs n
      blinding_factors ≠ .err e := by
  simp only [Argument.commit]
  refine noerr_bind (noerr_listIndex _ _) (fun t0 e' => ?_)
  by_cases hc : ¬ tables.all fun t => t.size = t0.size
  · rw [if_pos hc]
    simp
  · rw [if_neg hc]
    refine noerr_bind
      (fun e'' => commitScan_ne_err exprs tables
        (List.range (n - (blinding_factors + 1))) [] e'')
      (fun m e'' => ?_) e'
    refine noerr_bind (noerr_foldList (fun s a e3 => ?_) _ _)
      (fun mcm e3 => by simp [pure]) e''
    exact noerr_bind (noerr_listIndex _ _) (fun g e4 => by simp [pure]) e3

/-- C7 (amended): when a usable row's looked-up value is absent from a
referenced table, or a multi-column lookup resolves to different row
indices, `Argument::commit` aborts immediately — but through a Rust panic
(messages `".. not in table"` / `"Vector lookup must be on the same table
row"`), not through distinct named error values: no `Err` value is ever
returned.  Equivalently, whenever `commit` returns successfully every
usable row resolves consistently. -/
theorem claim_C7_commit_failures {F G1 : Type} [Field F] [DecidableEq F]
    [AddCommMonoid G1] [SMul F G1]
    (tables : List (StaticTableValues F G1))
    (table_config : StaticTableConfig G1) (params_g_lagrange : List G1)
    (θ : F) (exprs : List (List F)) (n blinding_factors : Nat) :
    (∀ e, Argument.commit tables table_config params_g_lagrange θ exprs n
      blinding_factors ≠ .err e) ∧
    (∀ c w, Argument.commit tables table_config params_g_lagrange θ exprs n
        blinding_factors = .ok (c, w) →
      RowsResolve exprs tables (n - (blinding_factors + 1))) := by
  refine ⟨commit_ne_err _ _ _ _ _ _ _, fun c w h => ?_⟩
  have hscan := (commit_extract_scan tables table_config params_g_lagrange θ
    exprs n blinding_factors c w h).2
  intro row hrow
  exact commitScan_ok_resolves exprs tables _ _ _ hscan row
    (List.mem_range.mpr hrow)

/-- Witness for C7 (amended): the concrete successful commit over `F13`
resolves its single usable row. -/
theorem claim_C7_witness :
    RowsResolve [[(1 : F13), 0]] [witnessTable] (2 - (0 + 1)) :=
  (claim_C7_commit_failures [witnessTable] witnessConfig [1, 1] 2
    [[1, 0]] 2 0).2 { f := [1, 0], m_sparse := [(0, 1)] }
    [.point 1, .point 2] (by decide)

/-- Counterexample for C7 as stated: with a value absent from the table
the prover panics (it does not return `LookupValueNotFound`), and with an
inconsistent two-column lookup it panics (it does not return
`InconsistentVectorLookup`). -/
theorem claim_C7_counterexample :
    Argument.commit [witnessTable] witnessConfig [1, 1] 2 [[2, 0]] 2 0 =
      .fail notInTableMsg ∧
    Argument.commit [witnessTable] witnessConfig [1, 1] 2 [[2, 0]] 2 0 ≠
      .err .LookupValueNotFound ∧
    Argument.commit [witnessTable, witnessTable2] witnessConfig [1, 1] 2
        [[1, 0], [10, 0]] 2 0 = .fail vectorLookupMsg ∧
    Argument.commit [witnessTable, witnessTable2] witnessConfig [1, 1] 2
        [[1, 0], [10, 0]] 2 0 ≠ .err .InconsistentVectorLookup := by
  exact ⟨by decide, by decide, by decide, by decide⟩

/-! ## Log-derivative round: evaluation and extraction lemmas (C2, C10) -/

theorem evalPolynomial_zero {F : Type} [Field F] (l : List F) :
    evalPolynomial l 0 = l.getD 0 0 := by
  cases l with
  | nil => rfl
  | cons c rest =>
    unfold evalPolynomial
    rw [List.reverse_cons, List.foldl_append]
    simp

theorem map_getD_range {F : Type} (d : F) (l : List F) :
    (List.range l.length).map (fun i => l.getD i d) = l := by
  induction l with
  | nil => rfl
  | cons a rest ih =>
    rw [List.length_cons, List.range_succ_eq_map, List.map_cons,
      List.map_map]
    refine congrArg₂ List.cons rfl ?_
    refine Eq.trans ?_ ih
    rfl

theorem map_range_getD_zero {α : Type} (d : α) (g : Nat → α)
    (n : Nat) (h : 0 < n) :
    ((List.range n).map g).getD 0 d = g 0 := by
  obtain ⟨m, hm⟩ := Nat.exists_eq_succ_of_ne_zero (Nat.pos_iff_ne_zero.mp h)
  rw [hm, List.range_succ_eq_map, List.map_cons, List.getD_cons_zero]

theorem ifftCoeffs_const_coeff {F : Type} [Field F] (evals : List F)
    (omega_inv n_inv : F) (h : evals ≠ []) :
    (ifftCoeffs evals omega_inv n_inv).getD 0 0 = n_inv * evals.sum := by
  have hlen : 0 < evals.length := List.length_pos.mpr h
  have h0 : (ifftCoeffs evals omega_inv n_inv).getD 0 0 =
      n_inv * ((List.range evals.length).map fun i =>
        evals.getD i 0 * omega_inv ^ (i * 0)).sum := by
    unfold ifftCoeffs
    exact map_range_getD_zero _ _ _ hlen
  rw [h0]
  refine congrArg (n_inv * ·) ?_
  calc ((List.range evals.length).map fun i =>
        evals.getD i 0 * omega_inv ^ (i * 0)).sum
      = ((List.range evals.length).map fun i => evals.getD i 0).sum := by
        refine congrArg List.sum ?_
        refine List.map_congr_left fun i _ => ?_
        rw [Nat.mul_zero, pow_zero, mul_one]
    _ = evals.sum := by rw [map_getD_range]

theorem finv_match_ok {F : Type} [Field F] [DecidableEq F] {x v : F}
    (h : (match finv x with
      | some v => RunResult.ok v
      | none => RunResult.fail unwrapFailMsg) = .ok v) :
    x ≠ 0 ∧ v = x⁻¹ := by
  by_cases hx : x = 0
  · rw [finv, if_pos hx] at h
    exact absurd h (by simp)
  · rw [finv, if_neg hx] at h
    exact ⟨hx, (RunResult.ok.inj h).symm⟩

theorem mapList_finv_ok {F : Type} [Field F] [DecidableEq F] (β : F) :
    ∀ (l out : List F),
      RunResult.mapList (fun fi => match finv (fi + β) with
        | some v => RunResult.ok v
        | none => RunResult.fail unwrapFailMsg) l = .ok out →
      out = l.map (fun fi => (fi + β)⁻¹) ∧ ∀ fi ∈ l, fi + β ≠ 0 := by
  intro l
  induction l with
  | nil =>
    intro out h
    rw [RunResult.mapList] at h
    exact ⟨(RunResult.ok.inj h).symm, by simp⟩
  | cons a rest ih =>
    intro out h
    rw [RunResult.mapList] at h
    obtain ⟨b, hb, h⟩ := runresult_bind_eq_ok.mp h
    obtain ⟨bs, hbs, h⟩ := runresult_bind_eq_ok.mp h
    obtain ⟨ha, hval⟩ := finv_match_ok hb
    obtain ⟨hout, hrest⟩ := ih bs hbs
    have hpure : b :: bs = out := RunResult.ok.inj h
    refine ⟨?_, ?_⟩
    · rw [← hpure, hout, hval, List.map_cons]
    · intro fi hfi
      rcases List.mem_cons.mp hfi with h1 | h2
      · exact h1 ▸ ha
      · exact hrest fi h2

theorem mapList_finv_all_ok {F : Type} [Field F] [DecidableEq F] (β : F)
    (l : List F) (h : ∀ fi ∈ l, fi + β ≠ 0) :
    RunResult.mapList (fun fi => match finv (fi + β) with
      | some v => RunResult.ok v
      | none => RunResult.fail unwrapFailMsg) l =
      .ok (l.map fun fi => (fi + β)⁻¹) := by
  induction l with
  | nil => rfl
  | cons a rest ih =>
    rw [RunResult.mapList]
    have ha := h a (by simp)
    rw [show (match finv (a + β) with
      | some v => RunResult.ok v
      | none => RunResult.fail unwrapFailMsg) = RunResult.ok (a + β)⁻¹ by
        rw [finv, if_neg ha]]
    rw [runresult_ok_bind, ih (fun fi hfi => h fi (by simp [hfi])),
      runresult_ok_bind]
    rfl

theorem finv_eq_some {F : Type} [Field F] [DecidableEq F] {x v : F} :
    finv x = some v ↔ x ≠ 0 ∧ v = x⁻¹ := by
  unfold finv
  by_cases hx : x = 0 <;> simp [hx, eq_comm]

theorem cld_extract {F G1 : Type} [Field F] [DecidableEq F]
    [AddCommMonoid G1] [SMul F G1]
    (tables : List (StaticTableValues F G1))
    (table_config : StaticTableConfig G1) (params_g b0_g1_bound : List G1)
    (k blinding_factors : Nat) (omega_inv n_inv β θ : F)
    (self : Committed F) (r : CommittedLogDerivative F)
    (w : List (TItem F G1))
    (h : Committed.commit_log_derivatives tables table_config params_g
      b0_g1_bound k blinding_factors omega_inv n_inv β θ self = .ok (r, w)) :
    β ≠ 0 ∧ ((table_config.size : Nat) : F) ≠ 0 ∧
    (∀ fi ∈ self.f.take (2 ^ k - (blinding_factors + 1)), fi + β ≠ 0) ∧
    r.b = ifftCoeffs
      (specBEvals self.f β (2 ^ k - (blinding_factors + 1)) blinding_factors)
      omega_inv n_inv ∧
    r.a_at_zero =
      (evalPolynomial r.b 0 * ((2 ^ k : Nat) : F) -
        ((blinding_factors : F) + 1) * β⁻¹) *
        (((table_config.size : Nat) : F))⁻¹ := by
  simp only [Committed.commit_log_derivatives] at h
  obtain ⟨acc, hacc, h⟩ := runresult_bind_eq_ok.mp h
  obtain ⟨bs0, hbs0, h⟩ := runresult_bind_eq_ok.mp h
  obtain ⟨hbs0_eq, hfnz⟩ := mapList_finv_ok β _ _ hbs0
  cases hfb : finv β with
  | none =>
    rw [hfb] at h
    exact absurd h (by simp [Bind.bind, RunResult.bind])
  | some bi =>
    rw [hfb] at h
    obtain ⟨hβ, hbeta_inv⟩ := finv_eq_some.mp hfb
    cases hfn : finv (((table_config.size : Nat)) : F) with
    | none =>
      rw [hfn] at h
      exact absurd h (by simp [Bind.bind, RunResult.bind])
    | some nti =>
      rw [hfn] at h
      obtain ⟨hN, hntinv⟩ := finv_eq_some.mp hfn
      simp only [Bind.bind, RunResult.bind, pure] at h
      have hr := congrArg Prod.fst (RunResult.ok.inj h)
      subst hr
      refine ⟨hβ, hN, hfnz, ?_, ?_⟩
      · show ifftCoeffs (bs0 ++ List.replicate (blinding_factors + 1) bi)
          omega_inv n_inv = _
        rw [hbs0_eq, hbeta_inv]
        rfl
      · show (evalPolynomial _ 0 * (((2 ^ k : Nat) : F)) -
          ((blinding_factors : F) + 1) * bi) * nti = _
        rw [hbeta_inv, hntinv, hbs0_eq]

/-- C2: whenever `commit_log_derivatives` succeeds (with `n_inv` the
domain's `ifft_divisor`, i.e. the inverse of the circuit domain size
`n = 2^k`), the returned `a_at_zero` satisfies the sumcheck identity
`table_size·a_at_zero = n·B(0) − (blinding_factors+1)/β`, where `B(0)` is
the constant coefficient of the polynomial interpolating `1/(f_i+β)` on
the usable rows and `1/β` on the remaining `blinding_factors+1` rows. -/
theorem claim_C2_a_at_zero {F G1 : Type} [Field F] [DecidableEq F]
    [AddCommMonoid G1] [SMul F G1]
    (tables : List (StaticTableValues F G1))
    (table_config : StaticTableConfig G1) (params_g b0_g1_bound : List G1)
    (k blinding_factors : Nat) (omega_inv n_inv β θ : F)
    (self : Committed F) (r : CommittedLogDerivative F)
    (w : List (TItem F G1))
    (h : Committed.commit_log_derivatives tables table_config params_g
      b0_g1_bound k blinding_factors omega_inv n_inv β θ self = .ok (r, w))
    (hbf : blinding_factors + 1 ≤ 2 ^ k)
    (hflen : 2 ^ k - (blinding_factors + 1) ≤ self.f.length)
    (hninv : n_inv = (((2 ^ k : Nat) : F))⁻¹) :
    ((table_config.size : Nat) : F) * r.a_at_zero =
      ((2 ^ k : Nat) : F) *
        specConstCoeff (specBEvals self.f β
          (2 ^ k - (blinding_factors + 1)) blinding_factors) -
      ((blinding_factors : F) + 1) * β⁻¹ := by
  obtain ⟨hβ, hN, hf, hb, ha⟩ := cld_extract tables table_config params_g
    b0_g1_bound k blinding_factors omega_inv n_inv β θ self r w h
  have hne : specBEvals self.f β (2 ^ k - (blinding_factors + 1))
      blinding_factors ≠ [] := by
    simp [specBEvals]
  have hlen : (specBEvals self.f β (2 ^ k - (blinding_factors + 1))
      blinding_factors).length = 2 ^ k := by
    simp only [specBEvals, List.length_append, List.length_map,
      List.length_take, List.length_replicate]
    omega
  have hb0 : evalPolynomial r.b 0 =
      n_inv * (specBEvals self.f β (2 ^ k - (blinding_factors + 1))
        blinding_factors).sum := by
    rw [evalPolynomial_zero, hb, ifftCoeffs_const_coeff _ _ _ hne]
  rw [ha, hb0, hninv]
  rw [specConstCoeff, hlen]
  rw [mul_comm (((table_config.size : Nat) : F)) _, mul_assoc,
    inv_mul_cancel₀ hN, mul_one]
  ring

/-- Witness for C2: the concrete `F13` run with `k = 1`,
`blinding_factors = 0`, `β = 1` satisfies the sumcheck identity
`2·a_at_zero = 2·B(0) − 1/β` (both sides equal `7` in `F13`). -/
theorem claim_C2_witness :
    ((2 : Nat) : F13) * (10 : F13) =
      ((2 ^ 1 : Nat) : F13) *
        specConstCoeff (specBEvals [1, 0] 1 (2 ^ 1 - (0 + 1)) 0) -
      ((0 : F13) + 1) * (1 : F13)⁻¹ :=
  claim_C2_a_at_zero [witnessTable] witnessConfig [1, 1] [1] 1 0 12 7 1 2
    { f := [1, 0], m_sparse := [(0, 1)] }
    { b := [4, 3], b0 := [3, 0], f := [7, 7], a_at_zero := 10 }
    [.point 1, .point 3, .point 2, .point 3, .point 3]
    (by decide) (by decide) (by decide) (by decide)

theorem finv_of_ne {F : Type} [Field F] [DecidableEq F] {x : F}
    (h : x ≠ 0) : finv x = some x⁻¹ := by
  rw [finv, if_neg h]

theorem listIndex_cases {α : Type} (l : List α) (i : Nat) :
    (∃ a, listIndex l i = .ok a) ∨ listIndex l i = .fail indexFailMsg := by
  unfold listIndex
  cases l.get? i
  · exact Or.inr rfl
  · exact Or.inl ⟨_, rfl⟩

theorem foldList_ok_or_fails {α σ : Type} {f : σ → α → RunResult σ}
    (msg1 msg2 : String) :
    ∀ l : List α,
      (∀ s, ∀ a ∈ l, (∃ s', f s a = .ok s') ∨ f s a = .fail msg1 ∨
        f s a = .fail msg2) →
      ∀ init : σ,
        (∃ s, RunResult.foldList f init l = .ok s) ∨
          RunResult.foldList f init l = .fail msg1 ∨
          RunResult.foldList f init l = .fail msg2 := by
  intro l
  induction l with
  | nil => exact fun _ init => Or.inl ⟨init, rfl⟩
  | cons a rest ih =>
    intro hstep init
    rw [RunResult.foldList]
    rcases hstep init a (by simp) with ⟨s', hs'⟩ | hfail | hfail
    · rw [hs', runresult_ok_bind]
      exact ih (fun s b hb => hstep s b (by simp [hb])) s'
    · rw [hfail]
      exact Or.inr (Or.inl rfl)
    · rw [hfail]
      exact Or.inr (Or.inr rfl)

theorem compress_tables_cases {F G1 : Type} [Field F] [AddCommMonoid G1]
    [SMul F G1] (tables : List (StaticTableValues F G1)) (θ : F)
    (i : Nat) :
    (∃ v, compress_tables tables θ i = .ok v) ∨
      compress_tables tables θ i = .fail indexFailMsg := by
  unfold compress_tables
  have := foldList_ok_or_fails (f := fun (acc : F × G1) t => do
      let v ← listIndex t.values i
      let q ← listIndex t.qs i
      pure (acc.1 * θ + v, θ • acc.2 + q))
    indexFailMsg indexFailMsg tables ?_ ((0 : F), (0 : G1))
  · rcases this with h | h | h
    · exact Or.inl h
    · exact Or.inr h
    · exact Or.inr h
  · intro s t ht
    beta_reduce
    rcases listIndex_cases t.values i with ⟨v, hv⟩ | hv
    · rw [hv, runresult_ok_bind]
      rcases listIndex_cases t.qs i with ⟨q, hq⟩ | hq
      · rw [hq, runresult_ok_bind]
        exact Or.inl ⟨_, rfl⟩
      · rw [hq]
        exact Or.inr (Or.inl rfl)
    · rw [hv]
      exact Or.inr (Or.inl rfl)

theorem aLoopStep_cases {F G1 : Type} [Field F] [DecidableEq F]
    [AddCommMonoid G1] [SMul F G1]
    (tables : List (StaticTableValues F G1))
    (table_config : StaticTableConfig G1) (θ β : F) (f_set : List F)
    (p : Nat × F)
    (hp : ∀ v : F × G1, compress_tables tables θ p.1 = .ok v → v.1 + β ≠ 0)
    (acc : G1 × G1 × G1) :
    (∃ s, aLoopStep tables table_config θ β f_set acc p = .ok s) ∨
      aLoopStep tables table_config θ β f_set acc p = .fail indexFailMsg ∨
      aLoopStep tables table_config θ β f_set acc p =
        .fail fSetAssertMsg := by
  unfold aLoopStep
  rcases compress_tables_cases tables θ p.1 with ⟨v, hv⟩ | hfail
  · rw [hv, runresult_ok_bind]
    rw [finv_of_ne (hp v hv)]
    simp only []
    rw [runresult_ok_bind]
    by_cases hfs : v.1 ∈ f_set
    · rw [if_pos hfs]
      rcases listIndex_cases table_config.g1_lagrange p.1 with ⟨g, hg⟩ | hg
      · rw [hg, runresult_ok_bind]
        rcases listIndex_cases table_config.g_lagrange_opening_at_0 p.1 with
          ⟨g0, hg0⟩ | hg0
        · rw [hg0, runresult_ok_bind]
          exact Or.inl ⟨_, rfl⟩
        · rw [hg0]
          exact Or.inr (Or.inl rfl)
      · rw [hg]
        exact Or.inr (Or.inl rfl)
    · rw [if_neg hfs]
      exact Or.inr (Or.inr rfl)
  · rw [hfail]
    exact Or.inr (Or.inl rfl)

theorem aLoopStep_ne_err {F G1 : Type} [Field F] [DecidableEq F]
    [AddCommMonoid G1] [SMul F G1]
    (tables : List (StaticTableValues F G1))
    (table_config : StaticTableConfig G1) (θ β : F) (f_set : List F)
    (acc : G1 × G1 × G1) (p : Nat × F) :
    ∀ e, aLoopStep tables table_config θ β f_set acc p ≠ .err e := by
  intro e
  unfold aLoopStep
  rcases compress_tables_cases tables θ p.1 with ⟨v, hv⟩ | hfail
  · rw [hv, runresult_ok_bind]
    cases hf : finv (v.1 + β) with
    | none =>
      simp [Bind.bind, RunResult.bind]
    | some w =>
      simp only []
      rw [runresult_ok_bind]
      by_cases hfs : v.1 ∈ f_set
      · rw [if_pos hfs]
        rcases listIndex_cases table_config.g1_lagrange p.1 with ⟨g, hg⟩ | hg
        · rw [hg, runresult_ok_bind]
          rcases listIndex_cases table_config.g_lagrange_opening_at_0 p.1
            with ⟨g0, hg0⟩ | hg0
          · rw [hg0, runresult_ok_bind]
            simp [pure]
          · rw [hg0]
            simp [Bind.bind, RunResult.bind]
        · rw [hg]
          simp [Bind.bind, RunResult.bind]
      · rw [if_neg hfs]
        simp
  · rw [hfail]
    simp [Bind.bind, RunResult.bind]

theorem cld_ne_err {F G1 : Type} [Field F] [DecidableEq F]
    [AddCommMonoid G1] [SMul F G1]
    (tables : List (StaticTableValues F G1))
    (table_config : StaticTableConfig G1) (params_g b0_g1_bound : List G1)
    (k blinding_factors : Nat) (omega_inv n_inv β θ : F)
    (self : Committed F) :
    ∀ e, Committed.commit_log_derivatives tables table_config params_g
      b0_g1_bound k blinding_factors omega_inv n_inv β θ self ≠ .err e := by
  intro e
  simp only [Committed.commit_log_derivatives]
  refine noerr_bind (noerr_foldList
    (fun s a e' => aLoopStep_ne_err tables table_config θ β self.f s a e')
    _ _) (fun acc e' => ?_) e
  refine noerr_bind (noerr_mapList (fun fi e3 => ?_) _)
    (fun bs e3 => ?_) e'
  · cases hf : finv (fi + β) <;> simp [hf]
  · cases hfb : finv β with
    | none =>
      simp [Bind.bind, RunResult.bind]
    | some bi =>
      simp only []
      cases hfn : finv (((table_config.size : Nat)) : F) with
      | none =>
        simp [Bind.bind, RunResult.bind]
      | some nti =>
        simp [Bind.bind, RunResult.bind, pure]

theorem aLoop_fold_ok_nonzero {F G1 : Type} [Field F] [DecidableEq F]
    [AddCommMonoid G1] [SMul F G1]
    (tables : List (StaticTableValues F G1))
    (table_config : StaticTableConfig G1) (θ β : F) (f_set : List F) :
    ∀ (l : List (Nat × F)) (acc s : G1 × G1 × G1),
      RunResult.foldList (aLoopStep tables table_config θ β f_set) acc l =
        .ok s →
      ∀ p ∈ l, ∀ v : F × G1,
        compress_tables tables θ p.1 = .ok v → v.1 + β ≠ 0 := by
  intro l
  induction l with
  | nil =>
    intro acc s h p hp
    exact absurd hp (List.not_mem_nil p)
  | cons q rest ih =>
    intro acc s h p hp
    rw [RunResult.foldList] at h
    obtain ⟨s1, hs1, hrest⟩ := runresult_bind_eq_ok.mp h
    rcases List.mem_cons.mp hp with h1 | h2
    · subst h1
      intro v hv
      unfold aLoopStep at hs1
      rw [hv, runresult_ok_bind] at hs1
      cases hf : finv (v.1 + β) with
      | none =>
        rw [hf] at hs1
        exact absurd hs1 (by simp [Bind.bind, RunResult.bind])
      | some w => exact (finv_eq_some.mp hf).1
    · exact ih _ _ hrest p h2

theorem cld_cases {F G1 : Type} [Field F] [DecidableEq F]
    [AddCommMonoid G1] [SMul F G1]
    (tables : List (StaticTableValues F G1))
    (table_config : StaticTableConfig G1) (params_g b0_g1_bound : List G1)
    (k blinding_factors : Nat) (omega_inv n_inv β θ : F)
    (self : Committed F) (hβ : β ≠ 0)
    (hf : ∀ fi ∈ self.f.take (2 ^ k - (blinding_factors + 1)), fi + β ≠ 0)
    (hm : ∀ p ∈ self.m_sparse, ∀ v : F × G1,
      compress_tables tables θ p.1 = .ok v → v.1 + β ≠ 0)
    (hN : (((table_config.size : Nat)) : F) ≠ 0) :
    (∃ x, Committed.commit_log_derivatives tables table_config params_g
      b0_g1_bound k blinding_factors omega_inv n_inv β θ self = .ok x) ∨
    Committed.commit_log_derivatives tables table_config params_g
      b0_g1_bound k blinding_factors omega_inv n_inv β θ self =
      .fail indexFailMsg ∨
    Committed.commit_log_derivatives tables table_config params_g
      b0_g1_bound k blinding_factors omega_inv n_inv β θ self =
      .fail fSetAssertMsg := by
  simp only [Committed.commit_log_derivatives]
  rcases foldList_ok_or_fails indexFailMsg fSetAssertMsg self.m_sparse
      (fun s p hp => aLoopStep_cases tables table_config θ β self.f p
        (hm p hp) s)
      ((0 : G1), (0 : G1), (0 : G1)) with ⟨acc, hacc⟩ | hfold | hfold
  · rw [hacc, runresult_ok_bind]
    rw [mapList_finv_all_ok β _ hf, runresult_ok_bind]
    rw [finv_of_ne hβ]
    simp only []
    rw [finv_of_ne hN]
    simp only []
    exact Or.inl ⟨_, rfl⟩
  · rw [hfold]
    exact Or.inr (Or.inl rfl)
  · rw [hfold]
    exact Or.inr (Or.inr rfl)

/-- C10: every inversion in `commit_log_derivatives` is an
`invert().unwrap()`.  Under the preconditions β ≠ 0, `f_i + β ≠ 0` on
every usable row, and (θ-compressed table value at index) + β ≠ 0 for
every index of `m_sparse` — plus the ambient fact that the table size is
nonzero in the scalar field (automatic for the BN254 field, whose
characteristic exceeds any table size) — no unwrap can fail: the run
either returns, or aborts through a different panic (out-of-bounds index
or the `f_set` sanity assert), never through the unwrap-failure branch.
If any of the three preconditions is violated the function panics instead
of returning an error value; and no error value is ever returned. -/
theorem claim_C10_inversions {F G1 : Type} [Field F] [DecidableEq F]
    [AddCommMonoid G1] [SMul F G1]
    (tables : List (StaticTableValues F G1))
    (table_config : StaticTableConfig G1) (params_g b0_g1_bound : List G1)
    (k blinding_factors : Nat) (omega_inv n_inv β θ : F)
    (self : Committed F) :
    ((β ≠ 0 ∧
      (∀ fi ∈ self.f.take (2 ^ k - (blinding_factors + 1)), fi + β ≠ 0) ∧
      (∀ p ∈ self.m_sparse, ∀ v : F × G1,
        compress_tables tables θ p.1 = .ok v → v.1 + β ≠ 0)) →
      (((table_config.size : Nat)) : F) ≠ 0 →
      Committed.commit_log_derivatives tables table_config params_g
        b0_g1_bound k blinding_factors omega_inv n_inv β θ self ≠
        .fail unwrapFailMsg) ∧
    (∀ e, Committed.commit_log_derivatives tables table_config params_g
      b0_g1_bound k blinding_factors omega_inv n_inv β θ self ≠ .err e) ∧
    ((¬ (β ≠ 0 ∧
      (∀ fi ∈ self.f.take (2 ^ k - (blinding_factors + 1)), fi + β ≠ 0) ∧
      (∀ p ∈ self.m_sparse, ∀ v : F × G1,
        compress_tables tables θ p.1 = .ok v → v.1 + β ≠ 0))) →
      ∃ msg, Committed.commit_log_derivatives tables table_config params_g
        b0_g1_bound k blinding_factors omega_inv n_inv β θ self =
        .fail msg) := by
  refine ⟨?_, cld_ne_err tables table_config params_g b0_g1_bound k
    blinding_factors omega_inv n_inv β θ self, ?_⟩
  · rintro ⟨hβ, hf, hm⟩ hN
    rcases cld_cases tables table_config params_g b0_g1_bound k
        blinding_factors omega_inv n_inv β θ self hβ hf hm hN with
      ⟨x, hx⟩ | hx | hx <;> rw [hx]
    · simp
    · intro hc
      exact absurd (RunResult.fail.inj hc) (by decide)
    · intro hc
      exact absurd (RunResult.fail.inj hc) (by decide)
  · intro hviol
    have hok : ¬ ∃ x, Committed.commit_log_derivatives tables table_config
        params_g b0_g1_bound k blinding_factors omega_inv n_inv β θ self =
        .ok x := by
      rintro ⟨⟨r, w⟩, hx⟩
      obtain ⟨hβ, hN, hf, -, -⟩ := cld_extract tables table_config params_g
        b0_g1_bound k blinding_factors omega_inv n_inv β θ self r w hx
      simp only [Committed.commit_log_derivatives] at hx
      obtain ⟨acc, hacc, -⟩ := runresult_bind_eq_ok.mp hx
      exact hviol ⟨hβ, hf,
        aLoop_fold_ok_nonzero tables table_config θ β self.f
          self.m_sparse _ acc hacc⟩
    cases hrun : Committed.commit_log_derivatives tables table_config
        params_g b0_g1_bound k blinding_factors omega_inv n_inv β θ self with
    | ok x => exact absurd ⟨x, hrun⟩ hok
    | err e =>
      exact absurd hrun (cld_ne_err tables table_config params_g
        b0_g1_bound k blinding_factors omega_inv n_inv β θ self e)
    | fail m => exact ⟨m, rfl⟩

set_option maxRecDepth 4000 in
/-- Witness for C10: at the concrete `F13` instance the preconditions
hold, so the run does not abort through an unwrap failure (indeed it
returns), and violating the β ≠ 0 precondition makes it panic. -/
theorem claim_C10_witness :
    (Committed.commit_log_derivatives [witnessTable] witnessConfig [1, 1]
      [1] 1 0 12 7 1 2 { f := [1, 0], m_sparse := [(0, 1)] } ≠
      RunResult.fail unwrapFailMsg) ∧
    (∃ msg, Committed.commit_log_derivatives [witnessTable] witnessConfig
      [1, 1] [1] 1 0 12 7 0 2 { f := [1, 0], m_sparse := [(0, 1)] } =
      RunResult.fail msg) :=
  ⟨(claim_C10_inversions [witnessTable] witnessConfig [1, 1] [1] 1 0 12 7
      1 2 { f := [1, 0], m_sparse := [(0, 1)] }).1
    ⟨by decide, by decide, by decide⟩ (by decide),
   (claim_C10_inversions [witnessTable] witnessConfig [1, 1] [1] 1 0 12 7
      0 2 { f := [1, 0], m_sparse := [(0, 1)] }).2.2
    (by intro h; exact h.1 rfl)⟩

/-- C6: the prover's transcript writes equal the verifier's reads, element
for element.  `commit` writes the two points `(f, m)`,
`commit_log_derivatives` writes the five points
`(a, qa, a0, b0, p)` in fixed order, `evaluate` writes the three scalars
`(b0_eval, f_eval, a_at_zero)`; the verifier state machine
`Uncommitted → CommittedWitness → CommittedLogDerivative → Evaluated`
consumes exactly these ten items in exactly this order, reconstructing
the written values, leaving any following transcript content intact. -/
theorem claim_C6_transcript {F G1 : Type} [Field F] [DecidableEq F]
    [AddCommMonoid G1] [SMul F G1]
    (tables : List (StaticTableValues F G1))
    (table_config : StaticTableConfig G1)
    (params_g_lagrange params_g b0_g1_bound : List G1)
    (k n blinding_factors : Nat) (omega_inv n_inv β θ x : F)
    (exprs : List (List F)) (c : Committed F)
    (r : CommittedLogDerivative F) (w1 w2 rest : List (TItem F G1))
    (h1 : Argument.commit tables table_config params_g_lagrange θ exprs n
      blinding_factors = .ok (c, w1))
    (h2 : Committed.commit_log_derivatives tables table_config params_g
      b0_g1_bound k blinding_factors omega_inv n_inv β θ c = .ok (r, w2)) :
    ∃ f_cm m_cm a qa a0 b0c pc : G1,
      w1 = [.point f_cm, .point m_cm] ∧
      w2 = [.point a, .point qa, .point a0, .point b0c, .point pc] ∧
      (CommittedLogDerivative.evaluate r x).2 =
        ([.scalar (evalPolynomial r.b0 x), .scalar (evalPolynomial r.f x),
          .scalar r.a_at_zero] : List (TItem F G1)) ∧
      verifierReadAll
          (w1 ++ w2 ++ (CommittedLogDerivative.evaluate r x).2 ++ rest) =
        some ((⟨⟨⟨f_cm, m_cm⟩, a, qa, a0, b0c, pc⟩,
          evalPolynomial r.b0 x, evalPolynomial r.f x, r.a_at_zero⟩ :
            EvaluatedV F G1), rest) := by
  simp only [Argument.commit] at h1
  obtain ⟨t0, ht0, h1⟩ := runresult_bind_eq_ok.mp h1
  by_cases hc : ¬ tables.all fun t => t.size = t0.size
  · rw [if_pos hc] at h1
    exact absurd h1 (by simp)
  rw [if_neg hc] at h1
  obtain ⟨m_sparse, hscan, h1⟩ := runresult_bind_eq_ok.mp h1
  obtain ⟨m_cm, hfold, h1⟩ := runresult_bind_eq_ok.mp h1
  have hw1' : _ = w1 := congrArg Prod.snd (RunResult.ok.inj h1)
  simp only [Committed.commit_log_derivatives] at h2
  obtain ⟨acc, hacc, h2⟩ := runresult_bind_eq_ok.mp h2
  obtain ⟨bs0, hbs0, h2⟩ := runresult_bind_eq_ok.mp h2
  cases hfb : finv β with
  | none =>
    rw [hfb] at h2
    exact absurd h2 (by simp [Bind.bind, RunResult.bind])
  | some bi =>
    rw [hfb] at h2
    cases hfn : finv (((table_config.size : Nat)) : F) with
    | none =>
      rw [hfn] at h2
      exact absurd h2 (by simp [Bind.bind, RunResult.bind])
    | some nti =>
      rw [hfn] at h2
      simp only [Bind.bind, RunResult.bind, pure] at h2
      have hw2' : _ = w2 := congrArg Prod.snd (RunResult.ok.inj h2)
      subst hw1'
      subst hw2'
      exact ⟨msm (compressExpressions θ n exprs) params_g_lagrange, m_cm,
        acc.1, acc.2.1, acc.2.2, _, _, rfl, rfl, rfl, rfl⟩

/-- Witness for C6: the full concrete `F13` pipeline — commit, log
derivative, evaluate at `x = 2` — writes ten items that the verifier
reads back verbatim, reconstructing exactly the written values. -/
theorem claim_C6_witness :
    verifierReadAll ([TItem.point 1, TItem.point 2] ++
      [TItem.point 1, TItem.point 3, TItem.point 2, TItem.point 3,
        TItem.point 3] ++
      ((CommittedLogDerivative.evaluate
        { b := [4, 3], b0 := [3, 0], f := [7, 7], a_at_zero := 10 } 2 :
          CommittedLogDerivative F13 × List (TItem F13 F13))).2 ++
      []) =
      some ((⟨⟨⟨1, 2⟩, 1, 3, 2, 3, 3⟩, evalPolynomial [3, 0] 2,
          evalPolynomial [7, 7] 2, 10⟩ : EvaluatedV F13 F13),
        ([] : List (TItem F13 F13))) := by
  obtain ⟨f_cm, m_cm, a, qa, a0, b0c, pc, hw1, hw2, hw3, hread⟩ :=
    claim_C6_transcript [witnessTable] witnessConfig [1, 1] [1, 1] [1] 1 2
      0 12 7 1 2 2 [[1, 0]] { f := [1, 0], m_sparse := [(0, 1)] }
      { b := [4, 3], b0 := [3, 0], f := [7, 7], a_at_zero := 10 }
      [.point 1, .point 2]
      [.point 1, .point 3, .point 2, .point 3, .point 3] []
      (by decide) (by decide)
  obtain ⟨hf, hm⟩ : (1 : F13) = f_cm ∧ (2 : F13) = m_cm := by
    simpa using hw1
  obtain ⟨ha, hqa, ha0, hb0, hp⟩ : (1 : F13) = a ∧ (3 : F13) = qa ∧
      (2 : F13) = a0 ∧ (3 : F13) = b0c ∧ (3 : F13) = pc := by
    simpa using hw2
  subst hf hm ha hqa ha0 hb0 hp
  exact hread
